import Mathlib

/-!
Verification of the branch-table lowering core of `wasm-ic`
(`src/lib.rs`): the two-pass `compute_branch_table` algorithm over
offset-tagged instruction records, the function-body extractor's
terminal-byte rewrite, and the hexadecimal artifact writers.

The instruction scanner (`collect_instructions`, delegating to the external
`wasmparser` crate) and the module container parser are external
collaborators; the embedding therefore works on the instruction record
sequence and on the parser-exposed operator byte lists directly, exactly as
`compute_branch_table` and `extract_function_body` consume them.
-/

namespace WasmIc

/-- Kind of a structured block, as in the Rust `BlockKind` enum. -/
inductive BlockKind where
  | Block
  | Loop
  | If
deriving DecidableEq

/-- Live scope record, as in the Rust `BlockInfo` struct. -/
structure BlockInfo where
  kind : BlockKind
  start_offset : Nat
  body_offset : Nat
  else_offset : Option Nat
deriving DecidableEq

/-- A single branch table entry `source_pc -> target_pc`; both fields are
`u32` in the source, so values are reduced mod `2 ^ 32` when entries are
built. -/
structure BranchEntry where
  source_pc : Nat
  target_pc : Nat
deriving DecidableEq

/-- Instruction classification, as in the Rust `InstrKind` enum. -/
inductive InstrKind where
  | Block
  | Loop
  | If
  | Else
  | End
  | Br (relative_depth : Nat)
  | BrIf (relative_depth : Nat)
  | Other
deriving DecidableEq

/-- Offset-tagged instruction record, as in the Rust `InstrRecord` struct. -/
structure InstrRecord where
  offset : Nat
  kind : InstrKind
deriving DecidableEq

/-- The two error shapes produced by `compute_branch_table` (the `anyhow!`
messages at the `Br`/`BrIf` arm), with the data interpolated into them. -/
inductive BtError where
  | DepthExceeded (depth : Nat) (offset : Nat)
  | UnresolvedEnd (start_offset : Nat)
deriving DecidableEq

/-- Truncation to 32 bits, modelling Rust `as u32` on a `usize`. -/
def u32 (n : Nat) : Nat := n % 2 ^ 32

/-- Read index `j` of the end-offset map (a `Vec<Option<usize>>` in the
source); out-of-range reads yield `none`. -/
def mapGetD : List (Option Nat) → Nat → Option Nat
  | [], _ => none
  | v :: _, 0 => v
  | _ :: rest, j + 1 => mapGetD rest j

/-- One step of pass 1 (the block-end resolver) of `compute_branch_table`:
push the index of a block-open instruction on `end_resolve_stack`; on `End`,
pop (if non-empty) and record the popped index against this `End`'s offset. -/
def pass1Step (st : List (Option Nat) × List Nat) (i : Nat) (instr : InstrRecord) :
    List (Option Nat) × List Nat :=
  match instr.kind with
  | .Block => (st.1, i :: st.2)
  | .Loop => (st.1, i :: st.2)
  | .If => (st.1, i :: st.2)
  | .End =>
    match st.2 with
    | [] => st
    | start_idx :: rest => (st.1.set start_idx (some instr.offset), rest)
  | _ => st

/-- Pass 1 main loop: `for (i, instr) in instrs.iter().enumerate()`. -/
def pass1 : List InstrRecord → Nat → List (Option Nat) × List Nat →
    List (Option Nat) × List Nat
  | [], _, st => st
  | instr :: rest, i, st => pass1 rest (i + 1) (pass1Step st i instr)

/-- The end-offset map `block_end_map` built by pass 1 of
`compute_branch_table`, starting from `vec![None; instrs.len()]`. -/
def block_end_map (instrs : List InstrRecord) : List (Option Nat) :=
  (pass1 instrs 0 (List.replicate instrs.length none, [])).1

/-- One step of pass 2 (the branch target resolver) of `compute_branch_table`.
The live scope stack is kept innermost-first here, so the Rust access
`stack[stack.len() - 1 - depth]` is the element at position `depth`, and a
failing `checked_sub` is exactly the out-of-range lookup. -/
def pass2Step (endMap : List (Option Nat))
    (st : List (Nat × BlockInfo) × List BranchEntry) (i : Nat) (instr : InstrRecord) :
    Except BtError (List (Nat × BlockInfo) × List BranchEntry) :=
  match instr.kind with
  | .Block =>
    .ok ((i, ⟨.Block, instr.offset, instr.offset + 2, none⟩) :: st.1, st.2)
  | .Loop =>
    .ok ((i, ⟨.Loop, instr.offset, instr.offset + 2, none⟩) :: st.1, st.2)
  | .If =>
    .ok ((i, ⟨.If, instr.offset, instr.offset + 2, none⟩) :: st.1, st.2)
  | .Else =>
    match st.1 with
    | (idx, info) :: rest =>
      if info.kind = .If then
        .ok ((idx, { info with else_offset := some instr.offset }) :: rest,
          st.2 ++ [⟨u32 info.start_offset, u32 (instr.offset + 1)⟩])
      else
        .ok st
    | [] => .ok st
  | .End =>
    match st.1 with
    | (_, info) :: rest =>
      match info.kind with
      | .If =>
        match info.else_offset with
        | some eo => .ok (rest, st.2 ++ [⟨u32 eo, u32 (instr.offset + 1)⟩])
        | none => .ok (rest, st.2 ++ [⟨u32 info.start_offset, u32 (instr.offset + 1)⟩])
      | .Block => .ok (rest, st.2)
      | .Loop => .ok (rest, st.2)
    | [] => .ok st
  | .Br depth | .BrIf depth =>
    match st.1[depth]? with
    | some (block_instr_idx, tinfo) =>
      match tinfo.kind with
      | .Loop => .ok (st.1, st.2 ++ [⟨u32 instr.offset, u32 tinfo.body_offset⟩])
      | _ =>
        match mapGetD endMap block_instr_idx with
        | some end_off => .ok (st.1, st.2 ++ [⟨u32 instr.offset, u32 (end_off + 1)⟩])
        | none => .error (.UnresolvedEnd tinfo.start_offset)
    | none => .error (.DepthExceeded depth instr.offset)
  | .Other => .ok st

/-- Pass 2 main loop of `compute_branch_table`, with `?`-style propagation of
the first error. -/
def pass2 (endMap : List (Option Nat)) :
    List InstrRecord → Nat → List (Nat × BlockInfo) × List BranchEntry →
    Except BtError (List (Nat × BlockInfo) × List BranchEntry)
  | [], _, st => .ok st
  | instr :: rest, i, st =>
    match pass2Step endMap st i instr with
    | .ok st2 => pass2 endMap rest (i + 1) st2
    | .error e => .error e

/-- `compute_branch_table`, over the instruction record sequence produced by
the scanner `collect_instructions` (whose own decoding is delegated to the
external `wasmparser` crate). -/
def compute_branch_table (instrs : List InstrRecord) : Except BtError (List BranchEntry) :=
  match pass2 (block_end_map instrs) instrs 0 ([], []) with
  | .ok st => .ok st.2
  | .error e => .error e

/-- A code-section function body as exposed by the external container parser:
its operator bytes, i.e. the body bytes after the locals declarations (the
split is computed by `wasmparser`'s `get_operators_reader`). -/
structure FuncBody where
  op_bytes : List Nat
deriving DecidableEq

/-- The error of `extract_function_body` when no code-section entry exists. -/
inductive ExtractError where
  | NoCodeSection
deriving DecidableEq

/-- The trailing-byte rewrite in `extract_function_body`:
`if let Some(last) = bytes.last_mut() { if *last == 0x0B { *last = 0x0F } }`. -/
def rewrite_terminal : List Nat → List Nat
  | [] => []
  | [b] => [if b = 0x0B then 0x0F else b]
  | b :: b2 :: rest => b :: rewrite_terminal (b2 :: rest)

/-- `extract_function_body`: the first code-section entry's operator bytes
with the trailing `end` (0x0B) rewritten to `return` (0x0F); fails when the
container has no code-section entries. -/
def extract_function_body : List FuncBody → Except ExtractError (List Nat)
  | [] => .error .NoCodeSection
  | body :: _ => .ok (rewrite_terminal body.op_bytes)

/-- Uppercase hexadecimal digit table of Rust's `{:X}` formatting (the
fallback row is never reached: the function is only applied below 16). -/
def hexDigitChar : Nat → Char
  | 0 => '0'
  | 1 => '1'
  | 2 => '2'
  | 3 => '3'
  | 4 => '4'
  | 5 => '5'
  | 6 => '6'
  | 7 => '7'
  | 8 => '8'
  | 9 => '9'
  | 10 => 'A'
  | 11 => 'B'
  | 12 => 'C'
  | 13 => 'D'
  | 14 => 'E'
  | 15 => 'F'
  | _ => '0'

/-- Uppercase hexadecimal digits of `n`, most significant first, as produced
by Rust `{:X}` before padding. -/
def hexChars (n : Nat) : List Char :=
  if _h : n < 16 then [hexDigitChar n]
  else hexChars (n / 16) ++ [hexDigitChar (n % 16)]
termination_by n
decreasing_by exact Nat.div_lt_self (by omega) (by omega)

/-- Rust `{:02X}` / `{:08X}`: zero-pad the hexadecimal digits of `n` on the
left to a minimum width `w`. -/
def padHex (w n : Nat) : List Char :=
  List.replicate (w - (hexChars n).length) '0' ++ hexChars n

/-- The text built by the loop of `write_prog_hex` before the final newline:
two digits per byte, a newline between consecutive bytes (`i + 1 < len`). -/
def prog_hex_go : List Nat → List Char
  | [] => []
  | [b] => padHex 2 b
  | b :: b2 :: rest => padHex 2 b ++ '\n' :: prog_hex_go (b2 :: rest)

/-- The full text written by `write_prog_hex`, as a character list: the loop
output plus the unconditional final newline. -/
def prog_hex (bytes : List Nat) : List Char :=
  prog_hex_go bytes ++ ['\n']

/-- The full text written by `write_branch_hex`, as a character list: per
entry, `{:08X} {:08X}\n`. -/
def branch_hex : List BranchEntry → List Char
  | [] => []
  | e :: rest =>
    padHex 8 e.source_pc ++ ' ' :: (padHex 8 e.target_pc ++ '\n' :: branch_hex rest)

/-- Spec reading of the program hex file: exactly one newline-terminated
two-digit line per input byte, in stream order, and nothing else. -/
def prog_hex_spec (bytes : List Nat) : List Char :=
  (bytes.map (fun b => padHex 2 b ++ ['\n'])).flatten

/-- Spec reading of the branch table hex file: one newline-terminated line
per entry in table order, two 8-digit fields separated by one space. -/
def branch_hex_spec (entries : List BranchEntry) : List Char :=
  (entries.map (fun e => padHex 8 e.source_pc ++ ' ' :: (padHex 8 e.target_pc ++ ['\n']))).flatten

/-- Encoded byte width that the scanner's decoding forces on a record:
block-open instructions occupy an opcode plus a block-type byte, every
instruction occupies at least one byte. -/
def instrWidth (r : InstrRecord) : Nat :=
  match r.kind with
  | .Block => 2
  | .Loop => 2
  | .If => 2
  | _ => 1

/-- Offset discipline of a scanned record sequence: consecutive records are
separated by at least the earlier record's encoded width. -/
def offsetsValid : List InstrRecord → Prop
  | [] => True
  | [_] => True
  | a :: b :: rest => a.offset + instrWidth a ≤ b.offset ∧ offsetsValid (b :: rest)

instance offsetsValid_dec : (l : List InstrRecord) → Decidable (offsetsValid l)
  | [] => isTrue trivial
  | [_] => isTrue trivial
  | _a :: b :: rest =>
    have : Decidable (offsetsValid (b :: rest)) := offsetsValid_dec (b :: rest)
    inferInstanceAs (Decidable (_ ∧ _))

/-- Well-formed structured instruction sequences: a sequence of items, each
either an opaque/branch record or a properly bracketed Block/Loop/If
construct, an `If` having at most one top-level `Else`. -/
inductive WF : List InstrRecord → Prop where
  | nil : WF []
  | flat (r : InstrRecord) (rest : List InstrRecord) :
      (r.kind = .Other ∨ (∃ d, r.kind = .Br d) ∨ (∃ d, r.kind = .BrIf d)) →
      WF rest → WF (r :: rest)
  | block (b e : InstrRecord) (body rest : List InstrRecord) :
      b.kind = .Block → e.kind = .End →
      WF body → WF rest → WF (b :: body ++ e :: rest)
  | loop (b e : InstrRecord) (body rest : List InstrRecord) :
      b.kind = .Loop → e.kind = .End →
      WF body → WF rest → WF (b :: body ++ e :: rest)
  | ifNoElse (b e : InstrRecord) (body rest : List InstrRecord) :
      b.kind = .If → e.kind = .End →
      WF body → WF rest → WF (b :: body ++ e :: rest)
  | ifElse (b el e : InstrRecord) (body1 body2 rest : List InstrRecord) :
      b.kind = .If → el.kind = .Else → e.kind = .End →
      WF body1 → WF body2 → WF rest →
      WF (b :: body1 ++ el :: body2 ++ e :: rest)

theorem mapGetD_set (m : List (Option Nat)) (a b : Nat) (v : Option Nat) :
    mapGetD (m.set a v) b = if a = b ∧ a < m.length then v else mapGetD m b := by
  induction m generalizing a b with
  | nil => simp [mapGetD]
  | cons v0 m ih =>
    cases a with
    | zero =>
      cases b with
      | zero => simp [mapGetD]
      | succ b => simp [mapGetD]
    | succ a =>
      cases b with
      | zero => simp [mapGetD]
      | succ b =>
        rw [List.set_cons_succ]
        show mapGetD (m.set a v) b = _
        rw [ih]
        have hc : (a = b ∧ a < m.length) ↔ (a + 1 = b + 1 ∧ a + 1 < (v0 :: m).length) := by
          simp only [List.length_cons]
          omega
        rw [if_congr hc rfl rfl]
        rfl

theorem mapGetD_set_ne (m : List (Option Nat)) (a b : Nat) (v : Option Nat) (h : a ≠ b) :
    mapGetD (m.set a v) b = mapGetD m b := by
  rw [mapGetD_set]
  exact if_neg (fun hc => h hc.1)

theorem mapGetD_replicate (n j : Nat) :
    mapGetD (List.replicate n (none : Option Nat)) j = none := by
  induction n generalizing j with
  | zero => rfl
  | succ n ih =>
    cases j with
    | zero => rfl
    | succ j => exact ih j

/-- Pass 1 never touches a map index that is below the running counter and
not on its stack. -/
theorem pass1_untouched (l : List InstrRecord) (i : Nat) (m : List (Option Nat))
    (stk : List Nat) (j : Nat) (hj : j < i) (hstk : j ∉ stk) :
    mapGetD (pass1 l i (m, stk)).1 j = mapGetD m j := by
  induction l generalizing i m stk with
  | nil => rfl
  | cons instr rest ih =>
    show mapGetD (pass1 rest (i + 1) (pass1Step (m, stk) i instr)).1 j = mapGetD m j
    cases hk : instr.kind with
    | Block =>
      simp only [pass1Step, hk]
      exact ih (i + 1) m (i :: stk) (by omega)
        (by simp only [List.mem_cons]; push_neg; exact ⟨by omega, hstk⟩)
    | Loop =>
      simp only [pass1Step, hk]
      exact ih (i + 1) m (i :: stk) (by omega)
        (by simp only [List.mem_cons]; push_neg; exact ⟨by omega, hstk⟩)
    | If =>
      simp only [pass1Step, hk]
      exact ih (i + 1) m (i :: stk) (by omega)
        (by simp only [List.mem_cons]; push_neg; exact ⟨by omega, hstk⟩)
    | End =>
      simp only [pass1Step, hk]
      cases stk with
      | nil => exact ih (i + 1) m [] (by omega) (by simp)
      | cons top stk2 =>
        have htop : top ≠ j := fun h => hstk (h ▸ List.mem_cons_self top stk2)
        have hj2 : j ∉ stk2 := fun h => hstk (List.mem_cons_of_mem top h)
        rw [ih (i + 1) _ stk2 (by omega) hj2, mapGetD_set_ne _ _ _ _ htop]
    | Else =>
      simp only [pass1Step, hk]
      exact ih (i + 1) m stk (by omega) hstk
    | Br d =>
      simp only [pass1Step, hk]
      exact ih (i + 1) m stk (by omega) hstk
    | BrIf d =>
      simp only [pass1Step, hk]
      exact ih (i + 1) m stk (by omega) hstk
    | Other =>
      simp only [pass1Step, hk]
      exact ih (i + 1) m stk (by omega) hstk

/-- If an index sits on pass 1's stack with a still-unset map slot, the final
map either leaves that slot unset or fills it with the offset of an `End`
record scanned later. -/
theorem pass1_future (l : List InstrRecord) (i : Nat) (m : List (Option Nat))
    (stk : List Nat) (j : Nat) (hj : j ∈ stk) (hlt : ∀ k ∈ stk, k < i)
    (hnd : stk.Nodup) (hm : mapGetD m j = none) :
    mapGetD (pass1 l i (m, stk)).1 j = none ∨
      ∃ r ∈ l, r.kind = .End ∧ mapGetD (pass1 l i (m, stk)).1 j = some r.offset := by
  induction l generalizing i m stk with
  | nil => exact Or.inl hm
  | cons instr rest ih =>
    show mapGetD (pass1 rest (i + 1) (pass1Step (m, stk) i instr)).1 j = none ∨
      ∃ r ∈ instr :: rest, r.kind = .End ∧
        mapGetD (pass1 rest (i + 1) (pass1Step (m, stk) i instr)).1 j = some r.offset
    have hsame : pass1Step (m, stk) i instr = (m, stk) →
        (mapGetD (pass1 rest (i + 1) (pass1Step (m, stk) i instr)).1 j = none ∨
          ∃ r ∈ instr :: rest, r.kind = .End ∧
            mapGetD (pass1 rest (i + 1) (pass1Step (m, stk) i instr)).1 j = some r.offset) := by
      intro hstep
      rw [hstep]
      rcases ih (i + 1) m stk hj (fun k hk2 => by have := hlt k hk2; omega) hnd hm with
        h | ⟨r, hr, hre, hrv⟩
      · exact Or.inl h
      · exact Or.inr ⟨r, List.mem_cons_of_mem instr hr, hre, hrv⟩
    have hpush : pass1Step (m, stk) i instr = (m, i :: stk) →
        (mapGetD (pass1 rest (i + 1) (pass1Step (m, stk) i instr)).1 j = none ∨
          ∃ r ∈ instr :: rest, r.kind = .End ∧
            mapGetD (pass1 rest (i + 1) (pass1Step (m, stk) i instr)).1 j = some r.offset) := by
      intro hstep
      rw [hstep]
      have hnotmem : i ∉ stk := fun h => absurd (hlt i h) (by omega)
      rcases ih (i + 1) m (i :: stk) (List.mem_cons_of_mem i hj)
          (by
            intro k hk
            rcases List.mem_cons.mp hk with h | h
            · omega
            · have := hlt k h; omega)
          (List.nodup_cons.mpr ⟨hnotmem, hnd⟩) hm with h | ⟨r, hr, hre, hrv⟩
      · exact Or.inl h
      · exact Or.inr ⟨r, List.mem_cons_of_mem instr hr, hre, hrv⟩
    cases hk : instr.kind with
    | Block => exact hpush (by simp [pass1Step, hk])
    | Loop => exact hpush (by simp [pass1Step, hk])
    | If => exact hpush (by simp [pass1Step, hk])
    | End =>
      cases stk with
      | nil => exact absurd hj (by simp)
      | cons top stk2 =>
        have hstep : pass1Step (m, top :: stk2) i instr =
            (m.set top (some instr.offset), stk2) := by
          simp [pass1Step, hk]
        rw [hstep]
        by_cases htop : top = j
        · have hj2 : j ∉ stk2 := htop ▸ (List.nodup_cons.mp hnd).1
          have hfin := pass1_untouched rest (i + 1) (m.set top (some instr.offset)) stk2 j
            (by have := hlt j hj; omega) hj2
          rw [hfin, htop, mapGetD_set]
          by_cases hlen : j < m.length
          · exact Or.inr ⟨instr, List.mem_cons_self instr rest, hk,
              by rw [if_pos ⟨rfl, hlen⟩]⟩
          · rw [if_neg (fun hc => hlen hc.2)]
            exact Or.inl hm
        · have hj2 : j ∈ stk2 := by
            rcases List.mem_cons.mp hj with h | h
            · exact absurd h.symm htop
            · exact h
          have hm2 : mapGetD (m.set top (some instr.offset)) j = none := by
            rw [mapGetD_set_ne _ _ _ _ htop]; exact hm
          rcases ih (i + 1) (m.set top (some instr.offset)) stk2 hj2
              (fun k hk2 => by have := hlt k (List.mem_cons_of_mem top hk2); omega)
              (List.nodup_cons.mp hnd).2 hm2 with h | ⟨r, hr, hre, hrv⟩
          · exact Or.inl h
          · exact Or.inr ⟨r, List.mem_cons_of_mem instr hr, hre, hrv⟩
    | Else => exact hsame (by simp [pass1Step, hk])
    | Br d => exact hsame (by simp [pass1Step, hk])
    | BrIf d => exact hsame (by simp [pass1Step, hk])
    | Other => exact hsame (by simp [pass1Step, hk])

theorem pass2_append (endMap : List (Option Nat)) (l1 l2 : List InstrRecord) (i : Nat)
    (st : List (Nat × BlockInfo) × List BranchEntry) :
    pass2 endMap (l1 ++ l2) i st =
      (pass2 endMap l1 i st).bind (fun st2 => pass2 endMap l2 (i + l1.length) st2) := by
  induction l1 generalizing i st with
  | nil => simp [pass2, Except.bind]
  | cons instr rest ih =>
    show pass2 endMap (instr :: (rest ++ l2)) i st = _
    simp only [pass2, List.length_cons]
    cases hstep : pass2Step endMap st i instr with
    | ok st2 =>
      show pass2 endMap (rest ++ l2) (i + 1) st2 =
        (pass2 endMap rest (i + 1) st2).bind
          (fun st3 => pass2 endMap l2 (i + (rest.length + 1)) st3)
      rw [ih (i + 1) st2]
      have harith : i + 1 + rest.length = i + (rest.length + 1) := by omega
      rw [harith]
    | error e => rfl

/-- An erroring pass-2 run decomposes as a successful prefix followed by one
erroring step. -/
theorem pass2_error_split (endMap : List (Option Nat)) (l : List InstrRecord) (i : Nat)
    (st : List (Nat × BlockInfo) × List BranchEntry) (e : BtError)
    (h : pass2 endMap l i st = .error e) :
    ∃ l1 instr l2 st2, l = l1 ++ instr :: l2 ∧ pass2 endMap l1 i st = .ok st2 ∧
      pass2Step endMap st2 (i + l1.length) instr = .error e := by
  induction l generalizing i st with
  | nil => exact absurd h (by simp [pass2])
  | cons instr rest ih =>
    revert h
    show (match pass2Step endMap st i instr with
      | .ok st2 => pass2 endMap rest (i + 1) st2
      | .error e2 => .error e2) = .error e → _
    cases hstep : pass2Step endMap st i instr with
    | error e2 =>
      intro h
      have he : e2 = e := by injection h
      subst he
      exact ⟨[], instr, rest, st, rfl, rfl, by simpa using hstep⟩
    | ok st2 =>
      intro h
      obtain ⟨l1, instr2, l2, st3, hsplit, hok, herr⟩ := ih (i + 1) st2 h
      refine ⟨instr :: l1, instr2, l2, st3, by simp [hsplit], ?_, ?_⟩
      · show (match pass2Step endMap st i instr with
          | .ok stx => pass2 endMap l1 (i + 1) stx
          | .error e2 => .error e2) = .ok st3
        rw [hstep]
        exact hok
      · have harith : i + (instr :: l1).length = i + 1 + l1.length := by
          simp only [List.length_cons]; omega
        rw [harith]
        exact herr

/-- A successful prefix followed by an erroring step makes the whole pass-2
run (and hence `compute_branch_table`) error. -/
theorem pass2_error_of_split (endMap : List (Option Nat)) (l1 : List InstrRecord)
    (instr : InstrRecord) (l2 : List InstrRecord) (i : Nat)
    (st st2 : List (Nat × BlockInfo) × List BranchEntry) (e : BtError)
    (hok : pass2 endMap l1 i st = .ok st2)
    (herr : pass2Step endMap st2 (i + l1.length) instr = .error e) :
    pass2 endMap (l1 ++ instr :: l2) i st = .error e := by
  rw [pass2_append, hok]
  show pass2 endMap (instr :: l2) (i + l1.length) st2 = .error e
  simp only [pass2, herr]

/-- `pass2Step` only errors at a `Br`/`BrIf`, and then exactly when the depth
is not covered by the live stack (a `DepthExceeded` carrying the instruction
offset) or the resolved `Block`/`If` scope has no recorded end offset (an
`UnresolvedEnd`). -/
theorem pass2Step_error_elim (endMap : List (Option Nat))
    (st : List (Nat × BlockInfo) × List BranchEntry) (i : Nat) (instr : InstrRecord)
    (e : BtError) (h : pass2Step endMap st i instr = .error e) :
    ∃ d, (instr.kind = .Br d ∨ instr.kind = .BrIf d) ∧
      ((st.1.length ≤ d ∧ e = .DepthExceeded d instr.offset) ∨
        (∃ j tinfo, st.1[d]? = some (j, tinfo) ∧ tinfo.kind ≠ .Loop ∧
          mapGetD endMap j = none ∧ e = .UnresolvedEnd tinfo.start_offset)) := by
  cases hk : instr.kind with
  | Block => exact absurd h (by simp [pass2Step, hk])
  | Loop => exact absurd h (by simp [pass2Step, hk])
  | If => exact absurd h (by simp [pass2Step, hk])
  | Else =>
    exfalso
    cases hst : st.1 with
    | nil => exact absurd h (by simp [pass2Step, hk, hst])
    | cons p rest =>
      obtain ⟨idx, info⟩ := p
      by_cases hif : info.kind = .If
      · exact absurd h (by simp [pass2Step, hk, hst, hif])
      · exact absurd h (by simp [pass2Step, hk, hst, hif])
  | End =>
    exfalso
    cases hst : st.1 with
    | nil => exact absurd h (by simp [pass2Step, hk, hst])
    | cons p rest =>
      obtain ⟨idx, info⟩ := p
      cases hik : info.kind with
      | If =>
        cases helse : info.else_offset with
        | some eo => exact absurd h (by simp [pass2Step, hk, hst, hik, helse])
        | none => exact absurd h (by simp [pass2Step, hk, hst, hik, helse])
      | Block => exact absurd h (by simp [pass2Step, hk, hst, hik])
      | Loop => exact absurd h (by simp [pass2Step, hk, hst, hik])
  | Br d =>
    refine ⟨d, Or.inl rfl, ?_⟩
    cases hget : st.1[d]? with
    | none =>
      have he : e = .DepthExceeded d instr.offset := by
        have := h
        simp only [pass2Step, hk, hget] at this
        injection this with h2
        exact h2.symm
      exact Or.inl ⟨List.getElem?_eq_none_iff.mp hget, he⟩
    | some p =>
      obtain ⟨j, tinfo⟩ := p
      cases htk : tinfo.kind with
      | Loop => exact absurd h (by simp [pass2Step, hk, hget, htk])
      | Block =>
        cases hmg : mapGetD endMap j with
        | some eo => exact absurd h (by simp [pass2Step, hk, hget, htk, hmg])
        | none =>
          have he : e = .UnresolvedEnd tinfo.start_offset := by
            have := h
            simp only [pass2Step, hk, hget, htk, hmg] at this
            injection this with h2
            exact h2.symm
          exact Or.inr ⟨j, tinfo, rfl, by simp [htk], hmg, he⟩
      | If =>
        cases hmg : mapGetD endMap j with
        | some eo => exact absurd h (by simp [pass2Step, hk, hget, htk, hmg])
        | none =>
          have he : e = .UnresolvedEnd tinfo.start_offset := by
            have := h
            simp only [pass2Step, hk, hget, htk, hmg] at this
            injection this with h2
            exact h2.symm
          exact Or.inr ⟨j, tinfo, rfl, by simp [htk], hmg, he⟩
  | BrIf d =>
    refine ⟨d, Or.inr rfl, ?_⟩
    cases hget : st.1[d]? with
    | none =>
      have he : e = .DepthExceeded d instr.offset := by
        have := h
        simp only [pass2Step, hk, hget] at this
        injection this with h2
        exact h2.symm
      exact Or.inl ⟨List.getElem?_eq_none_iff.mp hget, he⟩
    | some p =>
      obtain ⟨j, tinfo⟩ := p
      cases htk : tinfo.kind with
      | Loop => exact absurd h (by simp [pass2Step, hk, hget, htk])
      | Block =>
        cases hmg : mapGetD endMap j with
        | some eo => exact absurd h (by simp [pass2Step, hk, hget, htk, hmg])
        | none =>
          have he : e = .UnresolvedEnd tinfo.start_offset := by
            have := h
            simp only [pass2Step, hk, hget, htk, hmg] at this
            injection this with h2
            exact h2.symm
          exact Or.inr ⟨j, tinfo, rfl, by simp [htk], hmg, he⟩
      | If =>
        cases hmg : mapGetD endMap j with
        | some eo => exact absurd h (by simp [pass2Step, hk, hget, htk, hmg])
        | none =>
          have he : e = .UnresolvedEnd tinfo.start_offset := by
            have := h
            simp only [pass2Step, hk, hget, htk, hmg] at this
            injection this with h2
            exact h2.symm
          exact Or.inr ⟨j, tinfo, rfl, by simp [htk], hmg, he⟩
  | Other => exact absurd h (by simp [pass2Step, hk])

/-- A `Br`/`BrIf` whose depth is not covered by the live stack errors with
`DepthExceeded` carrying that depth and the instruction's offset. -/
theorem pass2Step_depth_error (endMap : List (Option Nat))
    (st : List (Nat × BlockInfo) × List BranchEntry) (i : Nat) (instr : InstrRecord)
    (d : Nat) (hk : instr.kind = .Br d ∨ instr.kind = .BrIf d)
    (hlen : st.1.length ≤ d) :
    pass2Step endMap st i instr = .error (.DepthExceeded d instr.offset) := by
  have hget : st.1[d]? = none := List.getElem?_eq_none hlen
  rcases hk with hk | hk <;> simp [pass2Step, hk, hget]

/-- A `Br`/`BrIf` resolving to a `Block`/`If` scope with no recorded end
offset errors with `UnresolvedEnd` carrying the scope's start offset. -/
theorem pass2Step_unresolved_error (endMap : List (Option Nat))
    (st : List (Nat × BlockInfo) × List BranchEntry) (i : Nat) (instr : InstrRecord)
    (d j : Nat) (tinfo : BlockInfo) (hk : instr.kind = .Br d ∨ instr.kind = .BrIf d)
    (hget : st.1[d]? = some (j, tinfo)) (hnl : tinfo.kind ≠ .Loop)
    (hmg : mapGetD endMap j = none) :
    pass2Step endMap st i instr = .error (.UnresolvedEnd tinfo.start_offset) := by
  cases htk : tinfo.kind with
  | Loop => exact absurd htk hnl
  | Block => rcases hk with hk | hk <;> simp [pass2Step, hk, hget, htk, hmg]
  | If => rcases hk with hk | hk <;> simp [pass2Step, hk, hget, htk, hmg]

/-- A `Br`/`BrIf` resolving to a `Loop` scope emits exactly one entry, from
the instruction's offset to the scope's `body_offset`. -/
theorem pass2Step_br_loop (endMap : List (Option Nat))
    (st : List (Nat × BlockInfo) × List BranchEntry) (i : Nat) (instr : InstrRecord)
    (d j : Nat) (tinfo : BlockInfo) (hk : instr.kind = .Br d ∨ instr.kind = .BrIf d)
    (hget : st.1[d]? = some (j, tinfo)) (htk : tinfo.kind = .Loop) :
    pass2Step endMap st i instr =
      .ok (st.1, st.2 ++ [⟨u32 instr.offset, u32 tinfo.body_offset⟩]) := by
  rcases hk with hk | hk <;> simp [pass2Step, hk, hget, htk]

/-- A `Br`/`BrIf` resolving to a `Block`/`If` scope whose end offset is
recorded emits exactly one entry, targeting that end offset plus one. -/
theorem pass2Step_br_end (endMap : List (Option Nat))
    (st : List (Nat × BlockInfo) × List BranchEntry) (i : Nat) (instr : InstrRecord)
    (d j eo : Nat) (tinfo : BlockInfo) (hk : instr.kind = .Br d ∨ instr.kind = .BrIf d)
    (hget : st.1[d]? = some (j, tinfo)) (hnl : tinfo.kind ≠ .Loop)
    (hmg : mapGetD endMap j = some eo) :
    pass2Step endMap st i instr =
      .ok (st.1, st.2 ++ [⟨u32 instr.offset, u32 (eo + 1)⟩]) := by
  cases htk : tinfo.kind with
  | Loop => exact absurd htk hnl
  | Block => rcases hk with hk | hk <;> simp [pass2Step, hk, hget, htk, hmg]
  | If => rcases hk with hk | hk <;> simp [pass2Step, hk, hget, htk, hmg]

/-- One successful pass-2 step preserves the `body_offset = start_offset + 2`
discipline of every scope on the live stack. -/
theorem pass2Step_body_preserve (endMap : List (Option Nat))
    (st st2 : List (Nat × BlockInfo) × List BranchEntry) (i : Nat) (instr : InstrRecord)
    (hstep : pass2Step endMap st i instr = .ok st2)
    (hbase : ∀ p ∈ st.1, p.2.body_offset = p.2.start_offset + 2) :
    ∀ p ∈ st2.1, p.2.body_offset = p.2.start_offset + 2 := by
  cases hk : instr.kind with
  | Block =>
    have h1 : st2.1 = (i, ⟨.Block, instr.offset, instr.offset + 2, none⟩) :: st.1 := by
      simp only [pass2Step, hk] at hstep
      injection hstep with h2
      rw [← h2]
    rw [h1]
    intro p hp
    rcases List.mem_cons.mp hp with h | h
    · rw [h]
    · exact hbase p h
  | Loop =>
    have h1 : st2.1 = (i, ⟨.Loop, instr.offset, instr.offset + 2, none⟩) :: st.1 := by
      simp only [pass2Step, hk] at hstep
      injection hstep with h2
      rw [← h2]
    rw [h1]
    intro p hp
    rcases List.mem_cons.mp hp with h | h
    · rw [h]
    · exact hbase p h
  | If =>
    have h1 : st2.1 = (i, ⟨.If, instr.offset, instr.offset + 2, none⟩) :: st.1 := by
      simp only [pass2Step, hk] at hstep
      injection hstep with h2
      rw [← h2]
    rw [h1]
    intro p hp
    rcases List.mem_cons.mp hp with h | h
    · rw [h]
    · exact hbase p h
  | Else =>
    cases hst : st.1 with
    | nil =>
      have h1 : st2 = st := by
        simp only [pass2Step, hk, hst] at hstep
        injection hstep with h2
        exact h2.symm
      rw [h1, hst]
      intro p hp
      exact absurd hp (by simp)
    | cons p0 rest =>
      obtain ⟨idx, info⟩ := p0
      by_cases hif : info.kind = .If
      · have h1 : st2.1 = (idx, { info with else_offset := some instr.offset }) :: rest := by
          simp only [pass2Step, hk, hst, hif, if_pos] at hstep
          injection hstep with h2
          rw [← h2]
          simp [hif]
        rw [h1]
        intro p hp
        rcases List.mem_cons.mp hp with h | h
        · have := hbase (idx, info) (hst ▸ List.mem_cons_self _ _)
          rw [h]
          exact this
        · exact hbase p (hst ▸ List.mem_cons_of_mem _ h)
      · have h1 : st2 = st := by
          simp only [pass2Step, hk, hst, hif, if_neg] at hstep
          injection hstep with h2
          exact h2.symm
        rw [h1]
        exact hbase
  | End =>
    cases hst : st.1 with
    | nil =>
      have h1 : st2 = st := by
        simp only [pass2Step, hk, hst] at hstep
        injection hstep with h2
        exact h2.symm
      rw [h1]
      exact hbase
    | cons p0 rest =>
      obtain ⟨idx, info⟩ := p0
      have h1 : st2.1 = rest := by
        cases hik : info.kind with
        | If =>
          cases helse : info.else_offset with
          | some eo =>
            simp only [pass2Step, hk, hst, hik, helse] at hstep
            injection hstep with h2
            rw [← h2]
          | none =>
            simp only [pass2Step, hk, hst, hik, helse] at hstep
            injection hstep with h2
            rw [← h2]
        | Block =>
          simp only [pass2Step, hk, hst, hik] at hstep
          injection hstep with h2
          rw [← h2]
        | Loop =>
          simp only [pass2Step, hk, hst, hik] at hstep
          injection hstep with h2
          rw [← h2]
      rw [h1]
      intro p hp
      exact hbase p (hst ▸ List.mem_cons_of_mem _ hp)
  | Br d =>
    have h1 : st2.1 = st.1 := by
      cases hget : st.1[d]? with
      | none => exact absurd hstep (by simp [pass2Step, hk, hget])
      | some p0 =>
        obtain ⟨j, tinfo⟩ := p0
        cases htk : tinfo.kind with
        | Loop =>
          simp only [pass2Step, hk, hget, htk] at hstep
          injection hstep with h2
          rw [← h2]
        | Block =>
          cases hmg : mapGetD endMap j with
          | some eo =>
            simp only [pass2Step, hk, hget, htk, hmg] at hstep
            injection hstep with h2
            rw [← h2]
          | none => exact absurd hstep (by simp [pass2Step, hk, hget, htk, hmg])
        | If =>
          cases hmg : mapGetD endMap j with
          | some eo =>
            simp only [pass2Step, hk, hget, htk, hmg] at hstep
            injection hstep with h2
            rw [← h2]
          | none => exact absurd hstep (by simp [pass2Step, hk, hget, htk, hmg])
    rw [h1]
    exact hbase
  | BrIf d =>
    have h1 : st2.1 = st.1 := by
      cases hget : st.1[d]? with
      | none => exact absurd hstep (by simp [pass2Step, hk, hget])
      | some p0 =>
        obtain ⟨j, tinfo⟩ := p0
        cases htk : tinfo.kind with
        | Loop =>
          simp only [pass2Step, hk, hget, htk] at hstep
          injection hstep with h2
          rw [← h2]
        | Block =>
          cases hmg : mapGetD endMap j with
          | some eo =>
            simp only [pass2Step, hk, hget, htk, hmg] at hstep
            injection hstep with h2
            rw [← h2]
          | none => exact absurd hstep (by simp [pass2Step, hk, hget, htk, hmg])
        | If =>
          cases hmg : mapGetD endMap j with
          | some eo =>
            simp only [pass2Step, hk, hget, htk, hmg] at hstep
            injection hstep with h2
            rw [← h2]
          | none => exact absurd hstep (by simp [pass2Step, hk, hget, htk, hmg])
    rw [h1]
    exact hbase
  | Other =>
    have h1 : st2 = st := by
      simp only [pass2Step, hk] at hstep
      injection hstep with h2
      exact h2.symm
    rw [h1]
    exact hbase

/-- Along any successful pass-2 run starting from a stack that satisfies the
`body_offset = start_offset + 2` discipline, the final stack satisfies it
too. -/
theorem pass2_body_offsets (endMap : List (Option Nat)) (l : List InstrRecord) (i : Nat)
    (st st' : List (Nat × BlockInfo) × List BranchEntry)
    (h : pass2 endMap l i st = .ok st')
    (hbase : ∀ p ∈ st.1, p.2.body_offset = p.2.start_offset + 2) :
    ∀ p ∈ st'.1, p.2.body_offset = p.2.start_offset + 2 := by
  induction l generalizing i st with
  | nil =>
    have h1 : st = st' := by
      simp only [pass2] at h
      injection h
    rw [← h1]
    exact hbase
  | cons instr rest ih =>
    revert h
    show (match pass2Step endMap st i instr with
      | .ok st2 => pass2 endMap rest (i + 1) st2
      | .error e2 => .error e2) = .ok st' → _
    cases hstep : pass2Step endMap st i instr with
    | error e2 => intro h; exact absurd h (by simp)
    | ok st2 =>
      intro h
      exact ih (i + 1) st2 h (pass2Step_body_preserve endMap st st2 i instr hstep hbase)

theorem instrWidth_pos (r : InstrRecord) : 1 ≤ instrWidth r := by
  cases hk : r.kind <;> simp [instrWidth, hk]

theorem offsetsValid_cons (a : InstrRecord) (l : List InstrRecord)
    (h : offsetsValid (a :: l)) : offsetsValid l := by
  cases l with
  | nil => trivial
  | cons b rest => exact h.2

theorem offsetsValid_head_le (a : InstrRecord) (l : List InstrRecord)
    (h : offsetsValid (a :: l)) : ∀ b ∈ l, a.offset + instrWidth a ≤ b.offset := by
  induction l generalizing a with
  | nil => intro b hb; cases hb
  | cons b rest ih =>
    intro c hc
    rcases List.mem_cons.mp hc with hcb | hcr
    · rw [hcb]; exact h.1
    · have h2 := ih b h.2 c hcr
      have h3 := instrWidth_pos b
      have h1 := h.1
      omega

theorem offsetsValid_suffix (l1 l2 : List InstrRecord) (h : offsetsValid (l1 ++ l2)) :
    offsetsValid l2 := by
  induction l1 with
  | nil => exact h
  | cons a rest ih => exact ih (offsetsValid_cons a _ h)

/-- Running invariant of the pass-2 scan at the point where `post` is the
still-unprocessed suffix, `S`/`E` are the live scope stack and emitted
entries, `(m, stk)` is pass 1's state at the same scan position, and `i` is
the shared instruction counter. -/
structure Inv (endMap : List (Option Nat)) (post : List InstrRecord)
    (S : List (Nat × BlockInfo)) (E : List BranchEntry)
    (m : List (Option Nat)) (stk : List Nat) (i : Nat) : Prop where
  stkIdx : stk = S.map Prod.fst
  idxLt : ∀ j ∈ stk, j < i
  idxNodup : stk.Nodup
  midNone : ∀ p ∈ S, mapGetD m p.1 = none
  highNone : ∀ j, i ≤ j → mapGetD m j = none
  bodyEq : ∀ p ∈ S, p.2.body_offset = p.2.start_offset + 2
  startBound : ∀ p ∈ S, p.2.start_offset + 2 < 2 ^ 32
  offBound : ∀ r ∈ post, r.offset + 2 < 2 ^ 32
  endMapEq : endMap = (pass1 post i (m, stk)).1
  targetsPos : ∀ en ∈ E, 1 ≤ en.target_pc

theorem inv_step (endMap : List (Option Nat)) (instr : InstrRecord)
    (post : List InstrRecord) (S : List (Nat × BlockInfo)) (E : List BranchEntry)
    (m : List (Option Nat)) (stk : List Nat) (i : Nat)
    (st2 : List (Nat × BlockInfo) × List BranchEntry)
    (hinv : Inv endMap (instr :: post) S E m stk i)
    (hstep : pass2Step endMap (S, E) i instr = .ok st2) :
    Inv endMap post st2.1 st2.2 (pass1Step (m, stk) i instr).1
      (pass1Step (m, stk) i instr).2 (i + 1) := by
  have hoffrest : ∀ r ∈ post, r.offset + 2 < 2 ^ 32 :=
    fun r hr => hinv.offBound r (List.mem_cons_of_mem instr hr)
  have hoffhead : instr.offset + 2 < 2 ^ 32 :=
    hinv.offBound instr (List.mem_cons_self instr post)
  have hpass1unfold : endMap = (pass1 post (i + 1) (pass1Step (m, stk) i instr)).1 :=
    hinv.endMapEq
  cases hk : instr.kind with
  | Block =>
    have h1p : pass1Step (m, stk) i instr = (m, i :: stk) := by simp [pass1Step, hk]
    have hst2 : st2 = ((i, ⟨.Block, instr.offset, instr.offset + 2, none⟩) :: S, E) := by
      simp only [pass2Step, hk] at hstep
      injection hstep with h2
      exact h2.symm
    subst hst2
    rw [h1p] at hpass1unfold ⊢
    refine ⟨?_, ?_, ?_, ?_, ?_, ?_, ?_, hoffrest, hpass1unfold, hinv.targetsPos⟩
    · show i :: stk = i :: S.map Prod.fst
      rw [hinv.stkIdx]
    · intro j hj
      rcases List.mem_cons.mp hj with h | h
      · omega
      · have := hinv.idxLt j h; omega
    · exact List.nodup_cons.mpr
        ⟨fun h => absurd (hinv.idxLt i h) (by omega), hinv.idxNodup⟩
    · intro p hp
      rcases List.mem_cons.mp hp with h | h
      · rw [h]; exact hinv.highNone i (le_refl i)
      · exact hinv.midNone p h
    · intro j hj
      exact hinv.highNone j (by omega)
    · intro p hp
      rcases List.mem_cons.mp hp with h | h
      · rw [h]
      · exact hinv.bodyEq p h
    · intro p hp
      rcases List.mem_cons.mp hp with h | h
      · rw [h]; exact hoffhead
      · exact hinv.startBound p h
  | Loop =>
    have h1p : pass1Step (m, stk) i instr = (m, i :: stk) := by simp [pass1Step, hk]
    have hst2 : st2 = ((i, ⟨.Loop, instr.offset, instr.offset + 2, none⟩) :: S, E) := by
      simp only [pass2Step, hk] at hstep
      injection hstep with h2
      exact h2.symm
    subst hst2
    rw [h1p] at hpass1unfold ⊢
    refine ⟨?_, ?_, ?_, ?_, ?_, ?_, ?_, hoffrest, hpass1unfold, hinv.targetsPos⟩
    · show i :: stk = i :: S.map Prod.fst
      rw [hinv.stkIdx]
    · intro j hj
      rcases List.mem_cons.mp hj with h | h
      · omega
      · have := hinv.idxLt j h; omega
    · exact List.nodup_cons.mpr
        ⟨fun h => absurd (hinv.idxLt i h) (by omega), hinv.idxNodup⟩
    · intro p hp
      rcases List.mem_cons.mp hp with h | h
      · rw [h]; exact hinv.highNone i (le_refl i)
      · exact hinv.midNone p h
    · intro j hj
      exact hinv.highNone j (by omega)
    · intro p hp
      rcases List.mem_cons.mp hp with h | h
      · rw [h]
      · exact hinv.bodyEq p h
    · intro p hp
      rcases List.mem_cons.mp hp with h | h
      · rw [h]; exact hoffhead
      · exact hinv.startBound p h
  | If =>
    have h1p : pass1Step (m, stk) i instr = (m, i :: stk) := by simp [pass1Step, hk]
    have hst2 : st2 = ((i, ⟨.If, instr.offset, instr.offset + 2, none⟩) :: S, E) := by
      simp only [pass2Step, hk] at hstep
      injection hstep with h2
      exact h2.symm
    subst hst2
    rw [h1p] at hpass1unfold ⊢
    refine ⟨?_, ?_, ?_, ?_, ?_, ?_, ?_, hoffrest, hpass1unfold, hinv.targetsPos⟩
    · show i :: stk = i :: S.map Prod.fst
      rw [hinv.stkIdx]
    · intro j hj
      rcases List.mem_cons.mp hj with h | h
      · omega
      · have := hinv.idxLt j h; omega
    · exact List.nodup_cons.mpr
        ⟨fun h => absurd (hinv.idxLt i h) (by omega), hinv.idxNodup⟩
    · intro p hp
      rcases List.mem_cons.mp hp with h | h
      · rw [h]; exact hinv.highNone i (le_refl i)
      · exact hinv.midNone p h
    · intro j hj
      exact hinv.highNone j (by omega)
    · intro p hp
      rcases List.mem_cons.mp hp with h | h
      · rw [h]
      · exact hinv.bodyEq p h
    · intro p hp
      rcases List.mem_cons.mp hp with h | h
      · rw [h]; exact hoffhead
      · exact hinv.startBound p h
  | Else =>
    have h1p : pass1Step (m, stk) i instr = (m, stk) := by simp [pass1Step, hk]
    rw [h1p] at hpass1unfold ⊢
    cases hS : S with
    | nil =>
      have hst2 : st2 = ([], E) := by
        rw [hS] at hstep
        simp only [pass2Step, hk] at hstep
        injection hstep with h2
        exact h2.symm
      subst hst2
      refine ⟨?_, ?_, hinv.idxNodup, ?_, ?_, ?_, ?_, hoffrest, hpass1unfold,
        hinv.targetsPos⟩
      · have := hinv.stkIdx; rw [hS] at this; exact this
      · intro j hj; have := hinv.idxLt j hj; omega
      · intro p hp; cases hp
      · intro j hj; exact hinv.highNone j (by omega)
      · intro p hp; cases hp
      · intro p hp; cases hp
    | cons p0 S2 =>
      obtain ⟨idx, info⟩ := p0
      by_cases hif : info.kind = .If
      · have hst2 : st2 = ((idx, { info with else_offset := some instr.offset }) :: S2,
            E ++ [⟨u32 info.start_offset, u32 (instr.offset + 1)⟩]) := by
          rw [hS] at hstep
          simp only [pass2Step, hk, hif, if_pos] at hstep
          injection hstep with h2
          rw [← h2, hif]
        subst hst2
        refine ⟨?_, (fun j hj => by have := hinv.idxLt j hj; omega),
          hinv.idxNodup, ?_, ?_, ?_, ?_, hoffrest, hpass1unfold, ?_⟩
        · have := hinv.stkIdx; rw [hS] at this; exact this
        · intro p hp
          rcases List.mem_cons.mp hp with h | h
          · rw [h]
            exact hinv.midNone (idx, info) (hS ▸ List.mem_cons_self _ _)
          · exact hinv.midNone p (hS ▸ List.mem_cons_of_mem _ h)
        · intro j hj; exact hinv.highNone j (by omega)
        · intro p hp
          rcases List.mem_cons.mp hp with h | h
          · rw [h]
            exact hinv.bodyEq (idx, info) (hS ▸ List.mem_cons_self _ _)
          · exact hinv.bodyEq p (hS ▸ List.mem_cons_of_mem _ h)
        · intro p hp
          rcases List.mem_cons.mp hp with h | h
          · rw [h]
            exact hinv.startBound (idx, info) (hS ▸ List.mem_cons_self _ _)
          · exact hinv.startBound p (hS ▸ List.mem_cons_of_mem _ h)
        · intro en hen
          rcases List.mem_append.mp hen with h | h
          · exact hinv.targetsPos en h
          · have he : en = ⟨u32 info.start_offset, u32 (instr.offset + 1)⟩ := by
              simpa using h
            rw [he]
            show 1 ≤ u32 (instr.offset + 1)
            have : u32 (instr.offset + 1) = instr.offset + 1 :=
              Nat.mod_eq_of_lt (by omega)
            omega
      · have hst2 : st2 = (S, E) := by
          rw [hS] at hstep
          simp only [pass2Step, hk, hif, if_neg] at hstep
          injection hstep with h2
          rw [← h2, hS]
        subst hst2
        exact ⟨hinv.stkIdx, fun j hj => by have := hinv.idxLt j hj; omega,
          hinv.idxNodup, hinv.midNone, fun j hj => hinv.highNone j (by omega),
          hinv.bodyEq, hinv.startBound, hoffrest, hpass1unfold, hinv.targetsPos⟩
  | End =>
    cases hS : S with
    | nil =>
      have hstk : stk = [] := by have := hinv.stkIdx; rw [hS] at this; exact this
      have h1p : pass1Step (m, stk) i instr = (m, stk) := by
        rw [hstk]; simp [pass1Step, hk]
      rw [h1p] at hpass1unfold ⊢
      have hst2 : st2 = ([], E) := by
        rw [hS] at hstep
        simp only [pass2Step, hk] at hstep
        injection hstep with h2
        exact h2.symm
      subst hst2
      refine ⟨?_, ?_, hinv.idxNodup, ?_, ?_, ?_, ?_, hoffrest, hpass1unfold,
        hinv.targetsPos⟩
      · rw [hstk]; rfl
      · intro j hj; have := hinv.idxLt j hj; omega
      · intro p hp; cases hp
      · intro j hj; exact hinv.highNone j (by omega)
      · intro p hp; cases hp
      · intro p hp; cases hp
    | cons p0 S2 =>
      obtain ⟨idx, info⟩ := p0
      have hstk : stk = idx :: S2.map Prod.fst := by
        have := hinv.stkIdx; rw [hS] at this; exact this
      have h1p : pass1Step (m, stk) i instr = (m.set idx (some instr.offset),
          S2.map Prod.fst) := by
        rw [hstk]; simp [pass1Step, hk]
      rw [h1p] at hpass1unfold ⊢
      have hidxlt : idx < i := hinv.idxLt idx (by rw [hstk]; exact List.mem_cons_self _ _)
      have hidxnot : idx ∉ S2.map Prod.fst := by
        have := hinv.idxNodup
        rw [hstk] at this
        exact (List.nodup_cons.mp this).1
      have hfields : st2.1 = S2 ∧ (st2.2 = E ∨
          ∃ src, st2.2 = E ++ [⟨u32 src, u32 (instr.offset + 1)⟩]) := by
        rw [hS] at hstep
        cases hik : info.kind with
        | If =>
          cases helse : info.else_offset with
          | some eo =>
            simp only [pass2Step, hk, hik, helse] at hstep
            injection hstep with h2
            rw [← h2]
            exact ⟨rfl, Or.inr ⟨eo, rfl⟩⟩
          | none =>
            simp only [pass2Step, hk, hik, helse] at hstep
            injection hstep with h2
            rw [← h2]
            exact ⟨rfl, Or.inr ⟨info.start_offset, rfl⟩⟩
        | Block =>
          simp only [pass2Step, hk, hik] at hstep
          injection hstep with h2
          rw [← h2]
          exact ⟨rfl, Or.inl rfl⟩
        | Loop =>
          simp only [pass2Step, hk, hik] at hstep
          injection hstep with h2
          rw [← h2]
          exact ⟨rfl, Or.inl rfl⟩
      obtain ⟨hst21, hst22⟩ := hfields
      rw [hst21]
      refine ⟨rfl, ?_, ?_, ?_, ?_, ?_, ?_, hoffrest, hpass1unfold, ?_⟩
      · intro j hj
        have := hinv.idxLt j (by rw [hstk]; exact List.mem_cons_of_mem _ hj)
        omega
      · have := hinv.idxNodup
        rw [hstk] at this
        exact (List.nodup_cons.mp this).2
      · intro p hp
        have hne : idx ≠ p.1 := fun h =>
          hidxnot (h ▸ List.mem_map_of_mem Prod.fst hp)
        rw [mapGetD_set_ne _ _ _ _ hne]
        exact hinv.midNone p (hS ▸ List.mem_cons_of_mem _ hp)
      · intro j hj
        have hne : idx ≠ j := by omega
        rw [mapGetD_set_ne _ _ _ _ hne]
        exact hinv.highNone j (by omega)
      · intro p hp
        exact hinv.bodyEq p (hS ▸ List.mem_cons_of_mem _ hp)
      · intro p hp
        exact hinv.startBound p (hS ▸ List.mem_cons_of_mem _ hp)
      · rcases hst22 with h | ⟨src, h⟩
        · rw [h]; exact hinv.targetsPos
        · rw [h]
          intro en hen
          rcases List.mem_append.mp hen with h2 | h2
          · exact hinv.targetsPos en h2
          · have he : en = ⟨u32 src, u32 (instr.offset + 1)⟩ := by simpa using h2
            rw [he]
            show 1 ≤ u32 (instr.offset + 1)
            have : u32 (instr.offset + 1) = instr.offset + 1 :=
              Nat.mod_eq_of_lt (by omega)
            omega
  | Br d =>
    have h1p : pass1Step (m, stk) i instr = (m, stk) := by simp [pass1Step, hk]
    rw [h1p] at hpass1unfold ⊢
    have hkbr : instr.kind = .Br d ∨ instr.kind = .BrIf d := Or.inl hk
    have hmain : st2.1 = S ∧ (st2.2 = E ∨ ∃ en, st2.2 = E ++ [en] ∧ 1 ≤ en.target_pc) := by
      cases hget : S[d]? with
      | none =>
        exact absurd hstep (by simp [pass2Step, hk, List.getElem?_eq_none,
          hget])
      | some p0 =>
        obtain ⟨j0, tinfo⟩ := p0
        have hmem : (j0, tinfo) ∈ S := List.getElem?_mem hget
        cases htk : tinfo.kind with
        | Loop =>
          have := pass2Step_br_loop endMap (S, E) i instr d j0 tinfo hkbr hget htk
          rw [this] at hstep
          injection hstep with h2
          rw [← h2]
          refine ⟨rfl, Or.inr ⟨_, rfl, ?_⟩⟩
          show 1 ≤ u32 tinfo.body_offset
          have hb := hinv.bodyEq (j0, tinfo) hmem
          have hsb := hinv.startBound (j0, tinfo) hmem
          have : u32 tinfo.body_offset = tinfo.start_offset + 2 := by
            rw [hb]; exact Nat.mod_eq_of_lt (by omega)
          omega
        | Block =>
          cases hmg : mapGetD endMap j0 with
          | none => exact absurd hstep (by simp [pass2Step, hk, hget, htk, hmg])
          | some eo =>
            have := pass2Step_br_end endMap (S, E) i instr d j0 eo tinfo hkbr hget
              (by simp [htk]) hmg
            rw [this] at hstep
            injection hstep with h2
            rw [← h2]
            refine ⟨rfl, Or.inr ⟨_, rfl, ?_⟩⟩
            show 1 ≤ u32 (eo + 1)
            have hj0 : j0 ∈ stk := by
              rw [hinv.stkIdx]
              exact List.mem_map_of_mem Prod.fst hmem
            have hfut := pass1_future post (i + 1) m stk j0 hj0
              (fun k hk2 => by have := hinv.idxLt k hk2; omega)
              hinv.idxNodup (hinv.midNone (j0, tinfo) hmem)
            rw [← hpass1unfold] at hfut
            rcases hfut with h | ⟨r, hr, _hre, hrv⟩
            · rw [h] at hmg; cases hmg
            · rw [hrv] at hmg
              injection hmg with heo
              have := hoffrest r hr
              have : u32 (eo + 1) = eo + 1 := Nat.mod_eq_of_lt (by omega)
              omega
        | If =>
          cases hmg : mapGetD endMap j0 with
          | none => exact absurd hstep (by simp [pass2Step, hk, hget, htk, hmg])
          | some eo =>
            have := pass2Step_br_end endMap (S, E) i instr d j0 eo tinfo hkbr hget
              (by simp [htk]) hmg
            rw [this] at hstep
            injection hstep with h2
            rw [← h2]
            refine ⟨rfl, Or.inr ⟨_, rfl, ?_⟩⟩
            show 1 ≤ u32 (eo + 1)
            have hj0 : j0 ∈ stk := by
              rw [hinv.stkIdx]
              exact List.mem_map_of_mem Prod.fst hmem
            have hfut := pass1_future post (i + 1) m stk j0 hj0
              (fun k hk2 => by have := hinv.idxLt k hk2; omega)
              hinv.idxNodup (hinv.midNone (j0, tinfo) hmem)
            rw [← hpass1unfold] at hfut
            rcases hfut with h | ⟨r, hr, _hre, hrv⟩
            · rw [h] at hmg; cases hmg
            · rw [hrv] at hmg
              injection hmg with heo
              have := hoffrest r hr
              have : u32 (eo + 1) = eo + 1 := Nat.mod_eq_of_lt (by omega)
              omega
    obtain ⟨hst21, hst22⟩ := hmain
    rw [hst21]
    refine ⟨hinv.stkIdx, ?_, hinv.idxNodup, hinv.midNone, ?_, hinv.bodyEq,
      hinv.startBound, hoffrest, hpass1unfold, ?_⟩
    · intro j hj; have := hinv.idxLt j hj; omega
    · intro j hj; exact hinv.highNone j (by omega)
    · rcases hst22 with h | ⟨en, h, hpos⟩
      · rw [h]; exact hinv.targetsPos
      · rw [h]
        intro en2 hen2
        rcases List.mem_append.mp hen2 with h2 | h2
        · exact hinv.targetsPos en2 h2
        · have : en2 = en := by simpa using h2
          rw [this]; exact hpos
  | BrIf d =>
    have h1p : pass1Step (m, stk) i instr = (m, stk) := by simp [pass1Step, hk]
    rw [h1p] at hpass1unfold ⊢
    have hkbr : instr.kind = .Br d ∨ instr.kind = .BrIf d := Or.inr hk
    have hmain : st2.1 = S ∧ (st2.2 = E ∨ ∃ en, st2.2 = E ++ [en] ∧ 1 ≤ en.target_pc) := by
      cases hget : S[d]? with
      | none =>
        exact absurd hstep (by simp [pass2Step, hk, List.getElem?_eq_none,
          hget])
      | some p0 =>
        obtain ⟨j0, tinfo⟩ := p0
        have hmem : (j0, tinfo) ∈ S := List.getElem?_mem hget
        cases htk : tinfo.kind with
        | Loop =>
          have := pass2Step_br_loop endMap (S, E) i instr d j0 tinfo hkbr hget htk
          rw [this] at hstep
          injection hstep with h2
          rw [← h2]
          refine ⟨rfl, Or.inr ⟨_, rfl, ?_⟩⟩
          show 1 ≤ u32 tinfo.body_offset
          have hb := hinv.bodyEq (j0, tinfo) hmem
          have hsb := hinv.startBound (j0, tinfo) hmem
          have : u32 tinfo.body_offset = tinfo.start_offset + 2 := by
            rw [hb]; exact Nat.mod_eq_of_lt (by omega)
          omega
        | Block =>
          cases hmg : mapGetD endMap j0 with
          | none => exact absurd hstep (by simp [pass2Step, hk, hget, htk, hmg])
          | some eo =>
            have := pass2Step_br_end endMap (S, E) i instr d j0 eo tinfo hkbr hget
              (by simp [htk]) hmg
            rw [this] at hstep
            injection hstep with h2
            rw [← h2]
            refine ⟨rfl, Or.inr ⟨_, rfl, ?_⟩⟩
            show 1 ≤ u32 (eo + 1)
            have hj0 : j0 ∈ stk := by
              rw [hinv.stkIdx]
              exact List.mem_map_of_mem Prod.fst hmem
            have hfut := pass1_future post (i + 1) m stk j0 hj0
              (fun k hk2 => by have := hinv.idxLt k hk2; omega)
              hinv.idxNodup (hinv.midNone (j0, tinfo) hmem)
            rw [← hpass1unfold] at hfut
            rcases hfut with h | ⟨r, hr, _hre, hrv⟩
            · rw [h] at hmg; cases hmg
            · rw [hrv] at hmg
              injection hmg with heo
              have := hoffrest r hr
              have : u32 (eo + 1) = eo + 1 := Nat.mod_eq_of_lt (by omega)
              omega
        | If =>
          cases hmg : mapGetD endMap j0 with
          | none => exact absurd hstep (by simp [pass2Step, hk, hget, htk, hmg])
          | some eo =>
            have := pass2Step_br_end endMap (S, E) i instr d j0 eo tinfo hkbr hget
              (by simp [htk]) hmg
            rw [this] at hstep
            injection hstep with h2
            rw [← h2]
            refine ⟨rfl, Or.inr ⟨_, rfl, ?_⟩⟩
            show 1 ≤ u32 (eo + 1)
            have hj0 : j0 ∈ stk := by
              rw [hinv.stkIdx]
              exact List.mem_map_of_mem Prod.fst hmem
            have hfut := pass1_future post (i + 1) m stk j0 hj0
              (fun k hk2 => by have := hinv.idxLt k hk2; omega)
              hinv.idxNodup (hinv.midNone (j0, tinfo) hmem)
            rw [← hpass1unfold] at hfut
            rcases hfut with h | ⟨r, hr, _hre, hrv⟩
            · rw [h] at hmg; cases hmg
            · rw [hrv] at hmg
              injection hmg with heo
              have := hoffrest r hr
              have : u32 (eo + 1) = eo + 1 := Nat.mod_eq_of_lt (by omega)
              omega
    obtain ⟨hst21, hst22⟩ := hmain
    rw [hst21]
    refine ⟨hinv.stkIdx, ?_, hinv.idxNodup, hinv.midNone, ?_, hinv.bodyEq,
      hinv.startBound, hoffrest, hpass1unfold, ?_⟩
    · intro j hj; have := hinv.idxLt j hj; omega
    · intro j hj; exact hinv.highNone j (by omega)
    · rcases hst22 with h | ⟨en, h, hpos⟩
      · rw [h]; exact hinv.targetsPos
      · rw [h]
        intro en2 hen2
        rcases List.mem_append.mp hen2 with h2 | h2
        · exact hinv.targetsPos en2 h2
        · have : en2 = en := by simpa using h2
          rw [this]; exact hpos
  | Other =>
    have h1p : pass1Step (m, stk) i instr = (m, stk) := by simp [pass1Step, hk]
    rw [h1p] at hpass1unfold ⊢
    have hst2 : st2 = (S, E) := by
      simp only [pass2Step, hk] at hstep
      injection hstep with h2
      exact h2.symm
    subst hst2
    exact ⟨hinv.stkIdx, fun j hj => by have := hinv.idxLt j hj; omega,
      hinv.idxNodup, hinv.midNone, fun j hj => hinv.highNone j (by omega),
      hinv.bodyEq, hinv.startBound, hoffrest, hpass1unfold, hinv.targetsPos⟩

theorem inv_run (endMap : List (Option Nat)) (l1 l2 : List InstrRecord) (i : Nat)
    (S0 : List (Nat × BlockInfo)) (E0 : List BranchEntry) (m0 : List (Option Nat))
    (stk0 : List Nat) (S : List (Nat × BlockInfo)) (E : List BranchEntry)
    (hinv : Inv endMap (l1 ++ l2) S0 E0 m0 stk0 i)
    (hrun : pass2 endMap l1 i (S0, E0) = .ok (S, E)) :
    ∃ m stk, Inv endMap l2 S E m stk (i + l1.length) := by
  induction l1 generalizing i S0 E0 m0 stk0 with
  | nil =>
    simp only [pass2] at hrun
    injection hrun with h
    injection h with h1 h2
    subst h1
    subst h2
    exact ⟨m0, stk0, by simpa using hinv⟩
  | cons instr rest ih =>
    revert hrun
    show (match pass2Step endMap (S0, E0) i instr with
      | .ok st2 => pass2 endMap rest (i + 1) st2
      | .error e2 => .error e2) = .ok (S, E) → _
    cases hstep : pass2Step endMap (S0, E0) i instr with
    | error e2 => intro hrun; exact absurd hrun (by simp)
    | ok st2 =>
      intro hrun
      have hnext := inv_step endMap instr (rest ++ l2) S0 E0 m0 stk0 i st2 hinv hstep
      obtain ⟨m, stk, hfin⟩ := ih (i + 1) st2.1 st2.2
        (pass1Step (m0, stk0) i instr).1 (pass1Step (m0, stk0) i instr).2 hnext hrun
      refine ⟨m, stk, ?_⟩
      have harith : i + 1 + rest.length = i + (instr :: rest).length := by
        simp only [List.length_cons]; omega
      rw [← harith]
      exact hfin

/-- The initial state of both passes satisfies the running invariant. -/
theorem inv_init (instrs : List InstrRecord)
    (hb : ∀ r ∈ instrs, r.offset + 2 < 2 ^ 32) :
    Inv (block_end_map instrs) instrs [] []
      (List.replicate instrs.length none) [] 0 := by
  refine ⟨rfl, ?_, List.nodup_nil, ?_, ?_, ?_, ?_, hb, rfl, ?_⟩
  · intro j hj; cases hj
  · intro p hp; cases hp
  · intro j _hj; exact mapGetD_replicate _ j
  · intro p hp; cases hp
  · intro p hp; cases hp
  · intro en hen; cases hen

/-- A successful pass-2 step changes the stack in one of exactly four ways:
not at all, a push of a fresh 2-byte-wide scope, an `else_offset` update of
the innermost scope, or a pop. -/
theorem pass2Step_stack_shape (endMap : List (Option Nat))
    (st st2 : List (Nat × BlockInfo) × List BranchEntry) (i : Nat) (instr : InstrRecord)
    (hstep : pass2Step endMap st i instr = .ok st2) :
    st2.1 = st.1 ∨
    (∃ K, st2.1 = (i, ⟨K, instr.offset, instr.offset + 2, none⟩) :: st.1 ∧
      instrWidth instr = 2) ∨
    (∃ idx info rest, st.1 = (idx, info) :: rest ∧
      st2.1 = (idx, { info with else_offset := some instr.offset }) :: rest) ∨
    (∃ p rest, st.1 = p :: rest ∧ st2.1 = rest) := by
  cases hk : instr.kind with
  | Block =>
    refine Or.inr (Or.inl ⟨.Block, ?_, by simp [instrWidth, hk]⟩)
    simp only [pass2Step, hk] at hstep
    injection hstep with h2
    rw [← h2]
  | Loop =>
    refine Or.inr (Or.inl ⟨.Loop, ?_, by simp [instrWidth, hk]⟩)
    simp only [pass2Step, hk] at hstep
    injection hstep with h2
    rw [← h2]
  | If =>
    refine Or.inr (Or.inl ⟨.If, ?_, by simp [instrWidth, hk]⟩)
    simp only [pass2Step, hk] at hstep
    injection hstep with h2
    rw [← h2]
  | Else =>
    cases hst : st.1 with
    | nil =>
      refine Or.inl ?_
      simp only [pass2Step, hk, hst] at hstep
      injection hstep with h2
      rw [← h2, hst]
    | cons p0 rest =>
      obtain ⟨idx, info⟩ := p0
      by_cases hif : info.kind = .If
      · refine Or.inr (Or.inr (Or.inl ⟨idx, info, rest, rfl, ?_⟩))
        simp only [pass2Step, hk, hst, hif, if_pos] at hstep
        injection hstep with h2
        rw [← h2]
        simp [hif]
      · refine Or.inl ?_
        simp only [pass2Step, hk, hst, hif, if_neg] at hstep
        injection hstep with h2
        rw [← h2]
        exact hst
  | End =>
    cases hst : st.1 with
    | nil =>
      refine Or.inl ?_
      simp only [pass2Step, hk, hst] at hstep
      injection hstep with h2
      rw [← h2, hst]
    | cons p0 rest =>
      obtain ⟨idx, info⟩ := p0
      refine Or.inr (Or.inr (Or.inr ⟨(idx, info), rest, rfl, ?_⟩))
      cases hik : info.kind with
      | If =>
        cases helse : info.else_offset with
        | some eo =>
          simp only [pass2Step, hk, hst, hik, helse] at hstep
          injection hstep with h2
          rw [← h2]
        | none =>
          simp only [pass2Step, hk, hst, hik, helse] at hstep
          injection hstep with h2
          rw [← h2]
      | Block =>
        simp only [pass2Step, hk, hst, hik] at hstep
        injection hstep with h2
        rw [← h2]
      | Loop =>
        simp only [pass2Step, hk, hst, hik] at hstep
        injection hstep with h2
        rw [← h2]
  | Br d =>
    refine Or.inl ?_
    cases hget : st.1[d]? with
    | none => exact absurd hstep (by simp [pass2Step, hk, hget])
    | some p0 =>
      obtain ⟨j, tinfo⟩ := p0
      cases htk : tinfo.kind with
      | Loop =>
        simp only [pass2Step, hk, hget, htk] at hstep
        injection hstep with h2
        rw [← h2]
      | Block =>
        cases hmg : mapGetD endMap j with
        | some eo =>
          simp only [pass2Step, hk, hget, htk, hmg] at hstep
          injection hstep with h2
          rw [← h2]
        | none => exact absurd hstep (by simp [pass2Step, hk, hget, htk, hmg])
      | If =>
        cases hmg : mapGetD endMap j with
        | some eo =>
          simp only [pass2Step, hk, hget, htk, hmg] at hstep
          injection hstep with h2
          rw [← h2]
        | none => exact absurd hstep (by simp [pass2Step, hk, hget, htk, hmg])
  | BrIf d =>
    refine Or.inl ?_
    cases hget : st.1[d]? with
    | none => exact absurd hstep (by simp [pass2Step, hk, hget])
    | some p0 =>
      obtain ⟨j, tinfo⟩ := p0
      cases htk : tinfo.kind with
      | Loop =>
        simp only [pass2Step, hk, hget, htk] at hstep
        injection hstep with h2
        rw [← h2]
      | Block =>
        cases hmg : mapGetD endMap j with
        | some eo =>
          simp only [pass2Step, hk, hget, htk, hmg] at hstep
          injection hstep with h2
          rw [← h2]
        | none => exact absurd hstep (by simp [pass2Step, hk, hget, htk, hmg])
      | If =>
        cases hmg : mapGetD endMap j with
        | some eo =>
          simp only [pass2Step, hk, hget, htk, hmg] at hstep
          injection hstep with h2
          rw [← h2]
        | none => exact absurd hstep (by simp [pass2Step, hk, hget, htk, hmg])
  | Other =>
    refine Or.inl ?_
    simp only [pass2Step, hk] at hstep
    injection hstep with h2
    rw [← h2]

/-- The running invariant extended with the offset-ordering facts needed for
the forward/backward classification: every live scope's body begins at or
before every unprocessed record, and the unprocessed records obey the width
discipline. -/
structure InvO (endMap : List (Option Nat)) (post : List InstrRecord)
    (S : List (Nat × BlockInfo)) (E : List BranchEntry)
    (m : List (Option Nat)) (stk : List Nat) (i : Nat) extends
      Inv endMap post S E m stk i : Prop where
  startLe : ∀ p ∈ S, ∀ r ∈ post, p.2.start_offset + 2 ≤ r.offset
  offsetsOk : offsetsValid post

theorem invO_step (endMap : List (Option Nat)) (instr : InstrRecord)
    (post : List InstrRecord) (S : List (Nat × BlockInfo)) (E : List BranchEntry)
    (m : List (Option Nat)) (stk : List Nat) (i : Nat)
    (st2 : List (Nat × BlockInfo) × List BranchEntry)
    (hinv : InvO endMap (instr :: post) S E m stk i)
    (hstep : pass2Step endMap (S, E) i instr = .ok st2) :
    InvO endMap post st2.1 st2.2 (pass1Step (m, stk) i instr).1
      (pass1Step (m, stk) i instr).2 (i + 1) := by
  refine ⟨inv_step endMap instr post S E m stk i st2 hinv.toInv hstep, ?_,
    offsetsValid_cons instr post hinv.offsetsOk⟩
  rcases pass2Step_stack_shape endMap (S, E) st2 i instr hstep with
    h | ⟨K, h, hw⟩ | ⟨idx, info, rest, hS, h⟩ | ⟨p0, rest, hS, h⟩
  · rw [h]
    intro p hp r hr
    exact hinv.startLe p hp r (List.mem_cons_of_mem instr hr)
  · rw [h]
    intro p hp r hr
    rcases List.mem_cons.mp hp with hh | hh
    · rw [hh]
      show instr.offset + 2 ≤ r.offset
      have := offsetsValid_head_le instr post hinv.offsetsOk r hr
      omega
    · exact hinv.startLe p hh r (List.mem_cons_of_mem instr hr)
  · have hS2 : S = (idx, info) :: rest := hS
    rw [h]
    intro p hp r hr
    rcases List.mem_cons.mp hp with hh | hh
    · rw [hh]
      exact hinv.startLe (idx, info) (hS2 ▸ List.mem_cons_self _ _) r
        (List.mem_cons_of_mem instr hr)
    · exact hinv.startLe p (hS2 ▸ List.mem_cons_of_mem _ hh) r
        (List.mem_cons_of_mem instr hr)
  · have hS2 : S = p0 :: rest := hS
    rw [h]
    intro p hp r hr
    exact hinv.startLe p (hS2 ▸ List.mem_cons_of_mem _ hp) r
      (List.mem_cons_of_mem instr hr)

theorem invO_run (endMap : List (Option Nat)) (l1 l2 : List InstrRecord) (i : Nat)
    (S0 : List (Nat × BlockInfo)) (E0 : List BranchEntry) (m0 : List (Option Nat))
    (stk0 : List Nat) (S : List (Nat × BlockInfo)) (E : List BranchEntry)
    (hinv : InvO endMap (l1 ++ l2) S0 E0 m0 stk0 i)
    (hrun : pass2 endMap l1 i (S0, E0) = .ok (S, E)) :
    ∃ m stk, InvO endMap l2 S E m stk (i + l1.length) := by
  induction l1 generalizing i S0 E0 m0 stk0 with
  | nil =>
    simp only [pass2] at hrun
    injection hrun with h
    injection h with h1 h2
    subst h1
    subst h2
    exact ⟨m0, stk0, by simpa using hinv⟩
  | cons instr rest ih =>
    revert hrun
    show (match pass2Step endMap (S0, E0) i instr with
      | .ok st2 => pass2 endMap rest (i + 1) st2
      | .error e2 => .error e2) = .ok (S, E) → _
    cases hstep : pass2Step endMap (S0, E0) i instr with
    | error e2 => intro hrun; exact absurd hrun (by simp)
    | ok st2 =>
      intro hrun
      have hnext := invO_step endMap instr (rest ++ l2) S0 E0 m0 stk0 i st2 hinv hstep
      obtain ⟨m, stk, hfin⟩ := ih (i + 1) st2.1 st2.2
        (pass1Step (m0, stk0) i instr).1 (pass1Step (m0, stk0) i instr).2 hnext hrun
      refine ⟨m, stk, ?_⟩
      have harith : i + 1 + rest.length = i + (instr :: rest).length := by
        simp only [List.length_cons]; omega
      rw [← harith]
      exact hfin

theorem invO_init (instrs : List InstrRecord) (hwf : offsetsValid instrs)
    (hb : ∀ r ∈ instrs, r.offset + 2 < 2 ^ 32) :
    InvO (block_end_map instrs) instrs [] []
      (List.replicate instrs.length none) [] 0 :=
  ⟨inv_init instrs hb, fun p hp => absurd hp (List.not_mem_nil p), hwf⟩

theorem compute_error_iff (instrs : List InstrRecord) (e : BtError) :
    compute_branch_table instrs = .error e ↔
      pass2 (block_end_map instrs) instrs 0 ([], []) = .error e := by
  unfold compute_branch_table
  cases pass2 (block_end_map instrs) instrs 0 ([], []) <;> simp

theorem compute_ok_elim (instrs : List InstrRecord) (entries : List BranchEntry)
    (h : compute_branch_table instrs = .ok entries) :
    ∃ S, pass2 (block_end_map instrs) instrs 0 ([], []) = .ok (S, entries) := by
  revert h
  unfold compute_branch_table
  cases hrun : pass2 (block_end_map instrs) instrs 0 ([], []) with
  | error e => intro h; exact absurd h (by simp)
  | ok st =>
    intro h
    have : st.2 = entries := by injection h
    exact ⟨st.1, by rw [← this]⟩

/-- Claim C1: at a `Br`/`BrIf` with relative depth `d`, reached with a live
scope stack deeper than `d`, the resolver emits exactly one entry from the
instruction's offset: to the target scope's body offset (its start offset
plus 2) when the target is a `Loop`, to the recorded end offset plus 1 when
it is a `Block`/`If`, and fails with `UnresolvedEnd` when that end offset is
missing from the map. -/
theorem branch_resolution_c1 (instrs pre post : List InstrRecord)
    (instr : InstrRecord) (d : Nat) (S : List (Nat × BlockInfo))
    (E : List BranchEntry) (j : Nat) (info : BlockInfo)
    (_hsplit : instrs = pre ++ instr :: post)
    (hrun : pass2 (block_end_map instrs) pre 0 ([], []) = .ok (S, E))
    (hkind : instr.kind = .Br d ∨ instr.kind = .BrIf d)
    (hget : S[d]? = some (j, info)) :
    (info.kind = .Loop →
      pass2Step (block_end_map instrs) (S, E) pre.length instr =
        .ok (S, E ++ [⟨u32 instr.offset, u32 (info.start_offset + 2)⟩])) ∧
    (info.kind ≠ .Loop → ∀ eo, mapGetD (block_end_map instrs) j = some eo →
      pass2Step (block_end_map instrs) (S, E) pre.length instr =
        .ok (S, E ++ [⟨u32 instr.offset, u32 (eo + 1)⟩])) ∧
    (info.kind ≠ .Loop → mapGetD (block_end_map instrs) j = none →
      pass2Step (block_end_map instrs) (S, E) pre.length instr =
        .error (.UnresolvedEnd info.start_offset)) := by
  have hbody : info.body_offset = info.start_offset + 2 :=
    pass2_body_offsets (block_end_map instrs) pre 0 ([], []) (S, E) hrun
      (fun p hp => absurd hp (List.not_mem_nil p)) (j, info) (List.getElem?_mem hget)
  refine ⟨?_, ?_, ?_⟩
  · intro hloop
    rw [← hbody]
    exact pass2Step_br_loop (block_end_map instrs) (S, E) pre.length instr d j info
      hkind hget hloop
  · intro hnl eo hmg
    exact pass2Step_br_end (block_end_map instrs) (S, E) pre.length instr d j eo info
      hkind hget hnl hmg
  · intro hnl hmg
    exact pass2Step_unresolved_error (block_end_map instrs) (S, E) pre.length instr d j
      info hkind hget hnl hmg

theorem branch_resolution_c1_witness :
    pass2Step (block_end_map [⟨0, .Loop⟩, ⟨2, .Br 0⟩, ⟨4, .End⟩])
      ([(0, ⟨.Loop, 0, 2, none⟩)], []) 1 ⟨2, .Br 0⟩ =
      .ok ([(0, ⟨.Loop, 0, 2, none⟩)], [⟨u32 2, u32 (0 + 2)⟩]) :=
  (branch_resolution_c1 [⟨0, .Loop⟩, ⟨2, .Br 0⟩, ⟨4, .End⟩] [⟨0, .Loop⟩]
    [⟨4, .End⟩] ⟨2, .Br 0⟩ 0 [(0, ⟨.Loop, 0, 2, none⟩)] [] 0 ⟨.Loop, 0, 2, none⟩
    rfl rfl (Or.inl rfl) rfl).1 rfl

/-- Claim C2: in pass 2, an `Else` scanned while the innermost scope is an
`If` records the else offset on that scope and emits one entry from the
`If`'s start offset to the else offset plus 1; the `If`'s `End` emits one
entry from the start offset (no else) or from the else offset (with else) to
the end offset plus 1; the `End` of a `Block`/`Loop` scope emits nothing. -/
theorem if_else_entries_c2 (endMap : List (Option Nat)) (i idx : Nat)
    (instr : InstrRecord) (info : BlockInfo) (rest : List (Nat × BlockInfo))
    (E : List BranchEntry) :
    (instr.kind = .Else → info.kind = .If →
      pass2Step endMap ((idx, info) :: rest, E) i instr =
        .ok ((idx, { info with else_offset := some instr.offset }) :: rest,
          E ++ [⟨u32 info.start_offset, u32 (instr.offset + 1)⟩])) ∧
    (instr.kind = .End → info.kind = .If → info.else_offset = none →
      pass2Step endMap ((idx, info) :: rest, E) i instr =
        .ok (rest, E ++ [⟨u32 info.start_offset, u32 (instr.offset + 1)⟩])) ∧
    (∀ eo, instr.kind = .End → info.kind = .If → info.else_offset = some eo →
      pass2Step endMap ((idx, info) :: rest, E) i instr =
        .ok (rest, E ++ [⟨u32 eo, u32 (instr.offset + 1)⟩])) ∧
    (instr.kind = .End → (info.kind = .Block ∨ info.kind = .Loop) →
      pass2Step endMap ((idx, info) :: rest, E) i instr = .ok (rest, E)) := by
  refine ⟨?_, ?_, ?_, ?_⟩
  · intro hk hif
    simp [pass2Step, hk, hif]
  · intro hk hif helse
    simp [pass2Step, hk, hif, helse]
  · intro eo hk hif helse
    simp [pass2Step, hk, hif, helse]
  · intro hk hbl
    rcases hbl with h | h <;> simp [pass2Step, hk, h]

theorem if_else_entries_c2_witness :
    pass2Step [] ([(0, ⟨.If, 0, 2, none⟩)], []) 1 ⟨3, .Else⟩ =
      .ok ([(0, { (⟨.If, 0, 2, none⟩ : BlockInfo) with else_offset := some 3 })],
        [⟨u32 0, u32 (3 + 1)⟩]) ∧
    pass2Step [] ([(0, ⟨.If, 0, 2, some 3⟩)], []) 2 ⟨7, .End⟩ =
      .ok ([], [⟨u32 3, u32 (7 + 1)⟩]) :=
  ⟨(if_else_entries_c2 [] 1 0 ⟨3, .Else⟩ ⟨.If, 0, 2, none⟩ [] []).1 rfl rfl,
   (if_else_entries_c2 [] 2 0 ⟨7, .End⟩ ⟨.If, 0, 2, some 3⟩ [] []).2.2.1 3 rfl rfl rfl⟩

/-- Claim C6: a mismatched `Else` or an orphan `End` never fails: pass 1
leaves its state unchanged on an `End` with an empty index stack, and pass 2
returns its state unchanged (no entry, no mutation, no error) on an `End`
with an empty scope stack, an `Else` with an empty scope stack, and an
`Else` whose innermost scope is not an `If`. -/
theorem leniency_c6 (endMap : List (Option Nat)) (i idx : Nat)
    (instr : InstrRecord) (m : List (Option Nat)) (info : BlockInfo)
    (rest : List (Nat × BlockInfo)) (E : List BranchEntry) :
    (instr.kind = .End → pass1Step (m, []) i instr = (m, [])) ∧
    (instr.kind = .End → pass2Step endMap ([], E) i instr = .ok ([], E)) ∧
    (instr.kind = .Else → pass2Step endMap ([], E) i instr = .ok ([], E)) ∧
    (instr.kind = .Else → info.kind ≠ .If →
      pass2Step endMap ((idx, info) :: rest, E) i instr =
        .ok ((idx, info) :: rest, E)) := by
  refine ⟨?_, ?_, ?_, ?_⟩
  · intro hk
    simp [pass1Step, hk]
  · intro hk
    simp [pass2Step, hk]
  · intro hk
    simp [pass2Step, hk]
  · intro hk hnif
    simp [pass2Step, hk, hnif]

theorem leniency_c6_witness :
    pass1Step ([none], []) 0 ⟨0, .End⟩ = ([none], []) ∧
    pass2Step [] ([], []) 0 ⟨0, .End⟩ = .ok ([], []) ∧
    pass2Step [] ([(0, ⟨.Block, 0, 2, none⟩)], []) 1 ⟨2, .Else⟩ =
      .ok ([(0, ⟨.Block, 0, 2, none⟩)], []) :=
  ⟨(leniency_c6 [] 0 0 ⟨0, .End⟩ [none] ⟨.Block, 0, 2, none⟩ [] []).1 rfl,
   (leniency_c6 [] 0 0 ⟨0, .End⟩ [none] ⟨.Block, 0, 2, none⟩ [] []).2.1 rfl,
   (leniency_c6 [] 1 0 ⟨2, .Else⟩ [] ⟨.Block, 0, 2, none⟩ [] []).2.2.2 rfl
     (by decide)⟩

/-- Claim C9: a `Br`/`BrIf` reached with an empty live scope stack makes
`compute_branch_table` fail with the depth-exceeded error for any relative
depth, including 0: the function's own outermost scope is never pushed, so a
function-level branch is always rejected. -/
theorem toplevel_branch_rejected_c9 (instrs pre post : List InstrRecord)
    (instr : InstrRecord) (d : Nat) (E : List BranchEntry)
    (hsplit : instrs = pre ++ instr :: post)
    (hkind : instr.kind = .Br d ∨ instr.kind = .BrIf d)
    (hrun : pass2 (block_end_map instrs) pre 0 ([], []) = .ok ([], E)) :
    compute_branch_table instrs = .error (.DepthExceeded d instr.offset) := by
  subst hsplit
  have herr := pass2Step_depth_error (block_end_map (pre ++ instr :: post)) ([], E)
    (0 + pre.length) instr d hkind (by simp)
  have hfull := pass2_error_of_split (block_end_map (pre ++ instr :: post)) pre instr
    post 0 ([], []) ([], E) (.DepthExceeded d instr.offset) hrun herr
  rw [compute_error_iff]
  exact hfull

theorem toplevel_branch_rejected_c9_witness :
    compute_branch_table [⟨0, .Br 0⟩] = .error (.DepthExceeded 0 0) :=
  toplevel_branch_rejected_c9 [⟨0, .Br 0⟩] [] [] ⟨0, .Br 0⟩ 0 [] rfl (Or.inl rfl) rfl

/-- Claim C10: when all record offsets are small enough that the `u32` casts
do not wrap, every entry emitted by `compute_branch_table` has a strictly
positive target PC, so no entry ever targets PC 0. -/
theorem target_pos_c10 (instrs : List InstrRecord) (entries : List BranchEntry)
    (hb : ∀ r ∈ instrs, r.offset + 2 < 2 ^ 32)
    (h : compute_branch_table instrs = .ok entries) :
    ∀ en ∈ entries, 1 ≤ en.target_pc := by
  obtain ⟨S, hrun⟩ := compute_ok_elim instrs entries h
  have hinit : Inv (block_end_map instrs) (instrs ++ []) [] []
      (List.replicate instrs.length none) [] 0 := by
    rw [List.append_nil]
    exact inv_init instrs hb
  obtain ⟨m, stk, hfin⟩ := inv_run (block_end_map instrs) instrs [] 0 [] []
    (List.replicate instrs.length none) [] S entries hinit hrun
  exact hfin.targetsPos

theorem target_pos_c10_witness :
    1 ≤ (⟨2, 5⟩ : BranchEntry).target_pc :=
  target_pos_c10 [⟨0, .Block⟩, ⟨2, .Br 0⟩, ⟨4, .End⟩] [⟨2, 5⟩]
    (by decide) rfl ⟨2, 5⟩ (List.mem_cons_self _ _)

/-- Claim C4: on a well-formed record sequence (width-respecting offsets,
no `u32` wrap), an entry emitted at a reachable `Br`/`BrIf` step jumps
backwards or in place (`target_pc ≤ source_pc`) when it resolves to a `Loop`
scope and strictly forwards (`target_pc > source_pc`) when it resolves to a
`Block`/`If` scope. -/
theorem forward_backward_c4 (instrs pre post : List InstrRecord)
    (instr : InstrRecord) (d : Nat) (S : List (Nat × BlockInfo))
    (E : List BranchEntry) (j : Nat) (info : BlockInfo) (en : BranchEntry)
    (hwf : offsetsValid instrs)
    (hb : ∀ r ∈ instrs, r.offset + 2 < 2 ^ 32)
    (hsplit : instrs = pre ++ instr :: post)
    (hrun : pass2 (block_end_map instrs) pre 0 ([], []) = .ok (S, E))
    (hkind : instr.kind = .Br d ∨ instr.kind = .BrIf d)
    (hget : S[d]? = some (j, info))
    (hstep : pass2Step (block_end_map instrs) (S, E) pre.length instr =
      .ok (S, E ++ [en])) :
    (info.kind = .Loop → en.target_pc ≤ en.source_pc) ∧
    (info.kind ≠ .Loop → en.source_pc < en.target_pc) := by
  subst hsplit
  obtain ⟨m, stk, hinv⟩ := invO_run (block_end_map (pre ++ instr :: post)) pre
    (instr :: post) 0 [] [] (List.replicate (pre ++ instr :: post).length none) []
    S E (invO_init (pre ++ instr :: post) hwf hb) hrun
  have hmem : (j, info) ∈ S := List.getElem?_mem hget
  have hsrc : instr.offset + 2 < 2 ^ 32 :=
    hinv.offBound instr (List.mem_cons_self instr post)
  constructor
  · intro hloop
    have hch := pass2Step_br_loop (block_end_map (pre ++ instr :: post)) (S, E)
      pre.length instr d j info hkind hget hloop
    rw [hch] at hstep
    injection hstep with h2
    injection h2 with h3 h4
    have hen : en = ⟨u32 instr.offset, u32 info.body_offset⟩ := by
      have := List.append_cancel_left h4
      simpa using this.symm
    rw [hen]
    show u32 info.body_offset ≤ u32 instr.offset
    have hb1 : info.body_offset = info.start_offset + 2 := hinv.bodyEq (j, info) hmem
    have hb2 : info.start_offset + 2 < 2 ^ 32 := hinv.startBound (j, info) hmem
    have hle : info.start_offset + 2 ≤ instr.offset :=
      hinv.startLe (j, info) hmem instr (List.mem_cons_self instr post)
    have e1 : u32 info.body_offset = info.start_offset + 2 := by
      rw [hb1]; exact Nat.mod_eq_of_lt (by omega)
    have e2 : u32 instr.offset = instr.offset := Nat.mod_eq_of_lt (by omega)
    omega
  · intro hnl
    cases hmg : mapGetD (block_end_map (pre ++ instr :: post)) j with
    | none =>
      have := pass2Step_unresolved_error (block_end_map (pre ++ instr :: post)) (S, E)
        pre.length instr d j info hkind hget hnl hmg
      rw [this] at hstep
      cases hstep
    | some eo =>
      have hch := pass2Step_br_end (block_end_map (pre ++ instr :: post)) (S, E)
        pre.length instr d j eo info hkind hget hnl hmg
      rw [hch] at hstep
      injection hstep with h2
      injection h2 with h3 h4
      have hen : en = ⟨u32 instr.offset, u32 (eo + 1)⟩ := by
        have := List.append_cancel_left h4
        simpa using this.symm
      rw [hen]
      show u32 instr.offset < u32 (eo + 1)
      have hj0 : j ∈ stk := by
        rw [hinv.stkIdx]
        exact List.mem_map_of_mem Prod.fst hmem
      have h1p : pass1Step (m, stk) (0 + pre.length) instr = (m, stk) := by
        rcases hkind with hk | hk <;> simp [pass1Step, hk]
      have hmapEq : block_end_map (pre ++ instr :: post) =
          (pass1 post (0 + pre.length + 1) (m, stk)).1 := by
        have := hinv.endMapEq
        rw [show pass1 (instr :: post) (0 + pre.length) (m, stk) =
          pass1 post (0 + pre.length + 1) (pass1Step (m, stk) (0 + pre.length) instr)
          from rfl, h1p] at this
        exact this
      have hfut := pass1_future post (0 + pre.length + 1) m stk j hj0
        (fun k hk2 => by have := hinv.idxLt k hk2; omega)
        hinv.idxNodup (hinv.midNone (j, info) hmem)
      rw [← hmapEq] at hfut
      rcases hfut with hnone | ⟨r, hr, hre, hrv⟩
      · rw [hnone] at hmg; cases hmg
      · rw [hrv] at hmg
        injection hmg with heo
        have hbr : r.offset + 2 < 2 ^ 32 :=
          hinv.offBound r (List.mem_cons_of_mem instr hr)
        have hlt : instr.offset + instrWidth instr ≤ r.offset :=
          offsetsValid_head_le instr post hinv.offsetsOk r hr
        have hw := instrWidth_pos instr
        have e1 : u32 instr.offset = instr.offset := Nat.mod_eq_of_lt (by omega)
        have e2 : u32 (eo + 1) = eo + 1 := Nat.mod_eq_of_lt (by omega)
        omega

theorem forward_backward_c4_witness :
    ((⟨.Block, 0, 2, none⟩ : BlockInfo).kind = .Loop →
      (⟨u32 2, u32 5⟩ : BranchEntry).target_pc ≤ (⟨u32 2, u32 5⟩ : BranchEntry).source_pc) ∧
    ((⟨.Block, 0, 2, none⟩ : BlockInfo).kind ≠ .Loop →
      (⟨u32 2, u32 5⟩ : BranchEntry).source_pc < (⟨u32 2, u32 5⟩ : BranchEntry).target_pc) :=
  forward_backward_c4 [⟨0, .Block⟩, ⟨2, .Br 0⟩, ⟨4, .End⟩] [⟨0, .Block⟩]
    [⟨4, .End⟩] ⟨2, .Br 0⟩ 0 [(0, ⟨.Block, 0, 2, none⟩)] [] 0 ⟨.Block, 0, 2, none⟩
    ⟨u32 2, u32 5⟩ (by decide) (by decide) rfl rfl (Or.inl rfl) rfl rfl

/-- Claim C3: `compute_branch_table` errors exactly when some reachable
`Br`/`BrIf` has a relative depth not covered by the live scope stack at that
record, or resolves to a `Block`/`If` scope with no recorded end offset; in
the depth case the error is `DepthExceeded` carrying the offending
instruction's offset (the depth is never clamped). -/
theorem failure_iff_c3 (instrs : List InstrRecord) :
    ((∃ e, compute_branch_table instrs = .error e) ↔
      ∃ pre instr post d S E, instrs = pre ++ instr :: post ∧
        pass2 (block_end_map instrs) pre 0 ([], []) = .ok (S, E) ∧
        (instr.kind = .Br d ∨ instr.kind = .BrIf d) ∧
        (S.length ≤ d ∨ ∃ j info, S[d]? = some (j, info) ∧ info.kind ≠ .Loop ∧
          mapGetD (block_end_map instrs) j = none)) ∧
    (∀ pre instr post d S E, instrs = pre ++ instr :: post →
      pass2 (block_end_map instrs) pre 0 ([], []) = .ok (S, E) →
      (instr.kind = .Br d ∨ instr.kind = .BrIf d) → S.length ≤ d →
      compute_branch_table instrs = .error (.DepthExceeded d instr.offset)) := by
  constructor
  · constructor
    · rintro ⟨e, he⟩
      rw [compute_error_iff] at he
      obtain ⟨l1, instr, l2, st2, hsplit, hok, herr⟩ :=
        pass2_error_split (block_end_map instrs) instrs 0 ([], []) e he
      obtain ⟨d, hkind, hcond⟩ := pass2Step_error_elim (block_end_map instrs) st2
        (0 + l1.length) instr e herr
      refine ⟨l1, instr, l2, d, st2.1, st2.2, hsplit, by rw [hok], hkind, ?_⟩
      rcases hcond with ⟨hlen, _⟩ | ⟨j, tinfo, hget, hnl, hmg, _⟩
      · exact Or.inl hlen
      · exact Or.inr ⟨j, tinfo, hget, hnl, hmg⟩
    · rintro ⟨pre, instr, post, d, S, E, hsplit, hok, hkind, hcond⟩
      rcases hcond with hlen | ⟨j, info, hget, hnl, hmg⟩
      · subst hsplit
        refine ⟨.DepthExceeded d instr.offset, ?_⟩
        rw [compute_error_iff]
        exact pass2_error_of_split _ pre instr post 0 ([], [])
          (S, E) _ hok
          (pass2Step_depth_error _ (S, E) (0 + pre.length) instr d hkind hlen)
      · subst hsplit
        refine ⟨.UnresolvedEnd info.start_offset, ?_⟩
        rw [compute_error_iff]
        exact pass2_error_of_split _ pre instr post 0 ([], [])
          (S, E) _ hok
          (pass2Step_unresolved_error _ (S, E) (0 + pre.length)
            instr d j info hkind hget hnl hmg)
  · intro pre instr post d S E hsplit hok hkind hlen
    subst hsplit
    rw [compute_error_iff]
    exact pass2_error_of_split _ pre instr post 0 ([], [])
      (S, E) _ hok
      (pass2Step_depth_error _ (S, E) (0 + pre.length) instr d hkind hlen)

theorem failure_iff_c3_witness :
    (∃ e, compute_branch_table [⟨0, .Br 0⟩] = .error e) ∧
    compute_branch_table [⟨0, .Br 5⟩] = .error (.DepthExceeded 5 0) :=
  ⟨(failure_iff_c3 [⟨0, .Br 0⟩]).1.mpr
    ⟨[], ⟨0, .Br 0⟩, [], 0, [], [], rfl, rfl, Or.inl rfl, Or.inl (by decide)⟩,
   (failure_iff_c3 [⟨0, .Br 5⟩]).2 [] ⟨0, .Br 5⟩ [] 5 [] [] rfl rfl (Or.inl rfl)
     (by decide)⟩

theorem rewrite_terminal_concat (l : List Nat) (b : Nat) :
    rewrite_terminal (l ++ [b]) = l ++ [if b = 0x0B then 0x0F else b] := by
  induction l with
  | nil => rfl
  | cons a l2 ih =>
    cases l2 with
    | nil => rfl
    | cons a2 l3 =>
      show a :: rewrite_terminal ((a2 :: l3) ++ [b]) = a :: ((a2 :: l3) ++ [_])
      rw [ih]

/-- Claim C5: on a container with at least one code-section entry,
`extract_function_body` returns the first entry's operator bytes with only
the final byte rewritten, from `end` (0x0B) to `return` (0x0F) when it is
0x0B; the returned stream therefore never ends with 0x0B; with no entries it
fails with `NoCodeSection`. -/
theorem extract_body_c5 (bodies : List FuncBody) :
    (bodies = [] → extract_function_body bodies = .error .NoCodeSection) ∧
    (∀ body rest, bodies = body :: rest →
      (body.op_bytes = [] → extract_function_body bodies = .ok []) ∧
      (∀ l b, body.op_bytes = l ++ [b] →
        extract_function_body bodies = .ok (l ++ [if b = 0x0B then 0x0F else b])) ∧
      (∀ out c, extract_function_body bodies = .ok out →
        out.getLast? = some c → c ≠ 0x0B)) := by
  constructor
  · intro h
    rw [h]
    rfl
  · intro body rest hsplit
    subst hsplit
    refine ⟨?_, ?_, ?_⟩
    · intro h
      show Except.ok (rewrite_terminal body.op_bytes) = _
      rw [h]
      rfl
    · intro l b h
      show Except.ok (rewrite_terminal body.op_bytes) = _
      rw [h, rewrite_terminal_concat]
    · intro out c hout hlast
      have hrw : out = rewrite_terminal body.op_bytes := by
        injection hout with h2
        exact h2.symm
      subst hrw
      rcases List.eq_nil_or_concat body.op_bytes with h | ⟨l, b, h⟩
      · rw [h] at hlast
        cases hlast
      · rw [List.concat_eq_append] at h
        rw [h, rewrite_terminal_concat] at hlast
        rw [List.getLast?_concat] at hlast
        injection hlast with h2
        subst h2
        by_cases hb : b = 0x0B
        · simp [hb]
        · simp [hb]

theorem extract_body_c5_witness :
    extract_function_body [⟨[0x41, 0x05, 0x0B]⟩] = .ok [0x41, 0x05, 0x0F] ∧
    extract_function_body [] = .error .NoCodeSection :=
  ⟨by
    have := ((extract_body_c5 [⟨[0x41, 0x05, 0x0B]⟩]).2 ⟨[0x41, 0x05, 0x0B]⟩ [] rfl).2.1
      [0x41, 0x05] 0x0B rfl
    simpa using this,
   (extract_body_c5 []).1 rfl⟩

theorem hexChars_length_le (w n : Nat) (hw : 1 ≤ w) (h : n < 16 ^ w) :
    (hexChars n).length ≤ w := by
  induction w generalizing n with
  | zero => omega
  | succ w2 ih =>
    rw [hexChars]
    by_cases h16 : n < 16
    · simp [h16]
    · have hw2 : 1 ≤ w2 := by
        by_contra hc
        have : w2 = 0 := by omega
        rw [this] at h
        simp at h
        omega
      have hdiv : n / 16 < 16 ^ w2 := by
        rw [Nat.div_lt_iff_lt_mul (by omega)]
        calc n < 16 ^ (w2 + 1) := h
        _ = 16 ^ w2 * 16 := by ring
      have := ih (n / 16) hw2 hdiv
      simp [h16]
      omega

theorem padHex_length (w n : Nat) (hw : 1 ≤ w) (h : n < 16 ^ w) :
    (padHex w n).length = w := by
  have h1 := hexChars_length_le w n hw h
  simp only [padHex, List.length_append, List.length_replicate]
  omega

theorem hexChars_digits (n : Nat) :
    ∀ c ∈ hexChars n, ∃ dgt, dgt < 16 ∧ c = hexDigitChar dgt := by
  induction n using Nat.strong_induction_on with
  | _ n ih =>
    rw [hexChars]
    by_cases h16 : n < 16
    · simp only [h16, dif_pos]
      intro c hc
      have : c = hexDigitChar n := by simpa using hc
      exact ⟨n, h16, this⟩
    · simp only [h16, dif_neg, not_false_iff]
      intro c hc
      rcases List.mem_append.mp hc with h | h
      · exact ih (n / 16) (Nat.div_lt_self (by omega) (by omega)) c h
      · have : c = hexDigitChar (n % 16) := by simpa using h
        exact ⟨n % 16, Nat.mod_lt n (by omega), this⟩

theorem padHex_digits (w n : Nat) :
    ∀ c ∈ padHex w n, ∃ dgt, dgt < 16 ∧ c = hexDigitChar dgt := by
  intro c hc
  rcases List.mem_append.mp hc with h | h
  · have : c = '0' := List.eq_of_mem_replicate h
    exact ⟨0, by omega, this⟩
  · exact hexChars_digits n c h

theorem branch_hex_spec_eq (entries : List BranchEntry) :
    branch_hex entries = branch_hex_spec entries := by
  induction entries with
  | nil => rfl
  | cons e rest ih =>
    show padHex 8 e.source_pc ++ ' ' :: (padHex 8 e.target_pc ++ '\n' :: branch_hex rest) =
      (padHex 8 e.source_pc ++ ' ' :: (padHex 8 e.target_pc ++ ['\n'])) ++
        branch_hex_spec rest
    rw [← ih]
    simp

theorem prog_hex_go_spec (b : Nat) (bytes : List Nat) :
    prog_hex_go (b :: bytes) ++ ['\n'] = prog_hex_spec (b :: bytes) := by
  induction bytes generalizing b with
  | nil => simp [prog_hex_go, prog_hex_spec]
  | cons b2 rest ih =>
    show (padHex 2 b ++ '\n' :: prog_hex_go (b2 :: rest)) ++ ['\n'] = _
    have : prog_hex_spec (b :: b2 :: rest) =
        (padHex 2 b ++ ['\n']) ++ prog_hex_spec (b2 :: rest) := by
      simp [prog_hex_spec]
    rw [this, ← ih b2]
    simp

/-- Claim C8 (amended): for every NONEMPTY byte stream, `write_prog_hex`'s
text is exactly one newline-terminated two-uppercase-hex-digit line per
byte in stream order (for the empty stream it is a single bare newline);
`write_branch_hex`'s text is one newline-terminated `SOURCE TARGET` line
per entry in table order with 8-digit fields; all characters produced by
the field formatter are hexadecimal digit characters. -/
theorem hex_output_c8 (bytes : List Nat) (entries : List BranchEntry)
    (hne : bytes ≠ []) :
    prog_hex bytes = prog_hex_spec bytes ∧
    branch_hex entries = branch_hex_spec entries ∧
    (∀ b ∈ bytes, b < 256 → (padHex 2 b).length = 2) ∧
    (∀ en ∈ entries, en.source_pc < 2 ^ 32 → en.target_pc < 2 ^ 32 →
      (padHex 8 en.source_pc).length = 8 ∧ (padHex 8 en.target_pc).length = 8) ∧
    (∀ w n, ∀ c ∈ padHex w n, ∃ dgt, dgt < 16 ∧ c = hexDigitChar dgt) := by
  refine ⟨?_, branch_hex_spec_eq entries, ?_, ?_, fun w n => padHex_digits w n⟩
  · cases bytes with
    | nil => exact absurd rfl hne
    | cons b rest => exact prog_hex_go_spec b rest
  · intro b _hb hlt
    exact padHex_length 2 b (by omega) (by omega)
  · intro en _hen h1 h2
    constructor
    · exact padHex_length 8 en.source_pc (by omega) (by norm_num at h1 ⊢; omega)
    · exact padHex_length 8 en.target_pc (by omega) (by norm_num at h2 ⊢; omega)

theorem hex_output_c8_witness :
    prog_hex [11] = prog_hex_spec [11] ∧
    branch_hex [⟨2, 5⟩] = branch_hex_spec [⟨2, 5⟩] :=
  ⟨(hex_output_c8 [11] [⟨2, 5⟩] (by decide)).1,
   (hex_output_c8 [11] [⟨2, 5⟩] (by decide)).2.1⟩

/-- Claim C8 counterexample: on the empty byte stream the writer's text is a
single bare newline (one blank line), not the zero lines (empty text) that
one-line-per-byte with no extra blank line prescribes. -/
theorem prog_hex_empty_c8 :
    prog_hex [] ≠ prog_hex_spec [] ∧ prog_hex [] = ['\n'] ∧
      prog_hex_spec [] = [] :=
  ⟨by decide, rfl, rfl⟩

/-- The source PCs of an entry list, in order. -/
def srcList (E : List BranchEntry) : List Nat := E.map (fun en => en.source_pc)

/-- The (truncated) offsets of a record list, in order. -/
def offList (l : List InstrRecord) : List Nat := l.map (fun r => u32 r.offset)

theorem pass2_ok_cons (endMap : List (Option Nat)) (instr : InstrRecord)
    (l : List InstrRecord) (i : Nat)
    (st stF : List (Nat × BlockInfo) × List BranchEntry)
    (h : pass2 endMap (instr :: l) i st = .ok stF) :
    ∃ stM, pass2Step endMap st i instr = .ok stM ∧
      pass2 endMap l (i + 1) stM = .ok stF := by
  revert h
  show (match pass2Step endMap st i instr with
    | .ok st2 => pass2 endMap l (i + 1) st2
    | .error e2 => .error e2) = .ok stF → _
  cases hstep : pass2Step endMap st i instr with
  | error e2 => intro h; exact absurd h (by simp)
  | ok stM => intro h; exact ⟨stM, rfl, h⟩

theorem pass2_ok_split (endMap : List (Option Nat)) (l1 l2 : List InstrRecord)
    (i : Nat) (st stF : List (Nat × BlockInfo) × List BranchEntry)
    (h : pass2 endMap (l1 ++ l2) i st = .ok stF) :
    ∃ stM, pass2 endMap l1 i st = .ok stM ∧
      pass2 endMap l2 (i + l1.length) stM = .ok stF := by
  rw [pass2_append] at h
  cases hm : pass2 endMap l1 i st with
  | error e => rw [hm] at h; exact absurd h (by simp [Except.bind])
  | ok stM =>
    rw [hm] at h
    exact ⟨stM, rfl, by simpa [Except.bind] using h⟩

/-- A successful `Br`/`BrIf` step leaves the stack alone and appends exactly
one entry whose source is the instruction's own (truncated) offset. -/
theorem pass2Step_br_shape (endMap : List (Option Nat))
    (S : List (Nat × BlockInfo)) (E : List BranchEntry) (i : Nat)
    (instr : InstrRecord) (d : Nat)
    (st2 : List (Nat × BlockInfo) × List BranchEntry)
    (hk : instr.kind = .Br d ∨ instr.kind = .BrIf d)
    (hstep : pass2Step endMap (S, E) i instr = .ok st2) :
    ∃ t, st2 = (S, E ++ [⟨u32 instr.offset, t⟩]) := by
  cases hget : S[d]? with
  | none =>
    have := pass2Step_depth_error endMap (S, E) i instr d hk
      (List.getElem?_eq_none_iff.mp hget)
    rw [this] at hstep
    cases hstep
  | some p0 =>
    obtain ⟨j, tinfo⟩ := p0
    cases htk : tinfo.kind with
    | Loop =>
      have := pass2Step_br_loop endMap (S, E) i instr d j tinfo hk hget htk
      rw [this] at hstep
      injection hstep with h2
      exact ⟨u32 tinfo.body_offset, h2.symm⟩
    | Block =>
      cases hmg : mapGetD endMap j with
      | none =>
        have := pass2Step_unresolved_error endMap (S, E) i instr d j tinfo hk hget
          (by simp [htk]) hmg
        rw [this] at hstep
        cases hstep
      | some eo =>
        have := pass2Step_br_end endMap (S, E) i instr d j eo tinfo hk hget
          (by simp [htk]) hmg
        rw [this] at hstep
        injection hstep with h2
        exact ⟨u32 (eo + 1), h2.symm⟩
    | If =>
      cases hmg : mapGetD endMap j with
      | none =>
        have := pass2Step_unresolved_error endMap (S, E) i instr d j tinfo hk hget
          (by simp [htk]) hmg
        rw [this] at hstep
        cases hstep
      | some eo =>
        have := pass2Step_br_end endMap (S, E) i instr d j eo tinfo hk hget
          (by simp [htk]) hmg
        rw [this] at hstep
        injection hstep with h2
        exact ⟨u32 (eo + 1), h2.symm⟩

/-- On a well-formed body, a successful pass-2 run returns the stack it
started from, only appends entries, and draws the source PC of each new
entry from the processed records' offsets with no record used twice. -/
theorem wf_shape (l : List InstrRecord) (hwf : WF l) :
    ∀ endMap i S E S2 E2, pass2 endMap l i (S, E) = .ok (S2, E2) →
      S2 = S ∧ ∃ new, E2 = E ++ new ∧
        ∀ a, (srcList new).count a ≤ (offList l).count a := by
  induction hwf with
  | nil =>
    intro endMap i S E S2 E2 hrun
    simp only [pass2] at hrun
    injection hrun with h
    injection h with h1 h2
    exact ⟨h1.symm, [], by rw [← h2]; simp, by intro a; simp [srcList]⟩
  | flat r rest hkind _hrest ihrest =>
    intro endMap i S E S2 E2 hrun
    obtain ⟨st1, hstep1, hrun1⟩ := pass2_ok_cons endMap r rest i (S, E) (S2, E2) hrun
    rcases hkind with hO | ⟨d, hBr⟩ | ⟨d, hBrIf⟩
    · have hv : pass2Step endMap (S, E) i r = .ok (S, E) := by simp [pass2Step, hO]
      have hst1 : st1 = (S, E) := by
        rw [hv] at hstep1
        injection hstep1 with h2
        exact h2.symm
      subst hst1
      obtain ⟨hs, new, hE, hcnt⟩ := ihrest endMap (i + 1) S E S2 E2 hrun1
      refine ⟨hs, new, hE, ?_⟩
      intro a
      have hc := hcnt a
      simp only [srcList, offList, List.map_cons, List.count_cons] at hc ⊢
      split_ifs <;> omega
    · obtain ⟨t, hst1⟩ := pass2Step_br_shape endMap S E i r d st1 (Or.inl hBr) hstep1
      subst hst1
      obtain ⟨hs, new, hE, hcnt⟩ := ihrest endMap (i + 1) S
        (E ++ [⟨u32 r.offset, t⟩]) S2 E2 hrun1
      refine ⟨hs, ⟨u32 r.offset, t⟩ :: new, by rw [hE]; simp, ?_⟩
      intro a
      have hc := hcnt a
      simp only [srcList, offList, List.map_cons, List.count_cons] at hc ⊢
      split_ifs <;> omega
    · obtain ⟨t, hst1⟩ := pass2Step_br_shape endMap S E i r d st1 (Or.inr hBrIf) hstep1
      subst hst1
      obtain ⟨hs, new, hE, hcnt⟩ := ihrest endMap (i + 1) S
        (E ++ [⟨u32 r.offset, t⟩]) S2 E2 hrun1
      refine ⟨hs, ⟨u32 r.offset, t⟩ :: new, by rw [hE]; simp, ?_⟩
      intro a
      have hc := hcnt a
      simp only [srcList, offList, List.map_cons, List.count_cons] at hc ⊢
      split_ifs <;> omega
  | block b e body rest hbk hek _hbody _hrest ihbody ihrest =>
    intro endMap i S E S2 E2 hrun
    obtain ⟨st1, hstep1, hrun1⟩ := pass2_ok_cons endMap b (body ++ e :: rest) i
      (S, E) (S2, E2) hrun
    have hv : pass2Step endMap (S, E) i b =
        .ok ((i, ⟨.Block, b.offset, b.offset + 2, none⟩) :: S, E) := by
      simp [pass2Step, hbk]
    have hst1 : st1 = ((i, ⟨.Block, b.offset, b.offset + 2, none⟩) :: S, E) := by
      rw [hv] at hstep1
      injection hstep1 with h2
      exact h2.symm
    subst hst1
    obtain ⟨stM, hrunB, hrunC⟩ := pass2_ok_split endMap body (e :: rest) (i + 1)
      _ _ hrun1
    obtain ⟨hstackB, newB, hEB, hcntB⟩ := ihbody endMap (i + 1)
      ((i, ⟨.Block, b.offset, b.offset + 2, none⟩) :: S) E stM.1 stM.2 hrunB
    obtain ⟨stN, hstepE, hrunR⟩ := pass2_ok_cons endMap e rest (i + 1 + body.length)
      stM (S2, E2) hrunC
    have hvE : pass2Step endMap stM (i + 1 + body.length) e = .ok (S, stM.2) := by
      simp [pass2Step, hek, hstackB]
    have hstN : stN = (S, stM.2) := by
      rw [hvE] at hstepE
      injection hstepE with h2
      exact h2.symm
    subst hstN
    obtain ⟨hstackR, newR, hER, hcntR⟩ := ihrest endMap (i + 1 + body.length + 1)
      S stM.2 S2 E2 hrunR
    refine ⟨hstackR, newB ++ newR, ?_, ?_⟩
    · rw [hER, hEB, List.append_assoc]
    · intro a
      have c1 := hcntB a
      have c2 := hcntR a
      simp only [srcList, offList, List.map_append, List.map_cons,
        List.count_append, List.count_cons] at c1 c2 ⊢
      split_ifs <;> omega
  | loop b e body rest hbk hek _hbody _hrest ihbody ihrest =>
    intro endMap i S E S2 E2 hrun
    obtain ⟨st1, hstep1, hrun1⟩ := pass2_ok_cons endMap b (body ++ e :: rest) i
      (S, E) (S2, E2) hrun
    have hv : pass2Step endMap (S, E) i b =
        .ok ((i, ⟨.Loop, b.offset, b.offset + 2, none⟩) :: S, E) := by
      simp [pass2Step, hbk]
    have hst1 : st1 = ((i, ⟨.Loop, b.offset, b.offset + 2, none⟩) :: S, E) := by
      rw [hv] at hstep1
      injection hstep1 with h2
      exact h2.symm
    subst hst1
    obtain ⟨stM, hrunB, hrunC⟩ := pass2_ok_split endMap body (e :: rest) (i + 1)
      _ _ hrun1
    obtain ⟨hstackB, newB, hEB, hcntB⟩ := ihbody endMap (i + 1)
      ((i, ⟨.Loop, b.offset, b.offset + 2, none⟩) :: S) E stM.1 stM.2 hrunB
    obtain ⟨stN, hstepE, hrunR⟩ := pass2_ok_cons endMap e rest (i + 1 + body.length)
      stM (S2, E2) hrunC
    have hvE : pass2Step endMap stM (i + 1 + body.length) e = .ok (S, stM.2) := by
      simp [pass2Step, hek, hstackB]
    have hstN : stN = (S, stM.2) := by
      rw [hvE] at hstepE
      injection hstepE with h2
      exact h2.symm
    subst hstN
    obtain ⟨hstackR, newR, hER, hcntR⟩ := ihrest endMap (i + 1 + body.length + 1)
      S stM.2 S2 E2 hrunR
    refine ⟨hstackR, newB ++ newR, ?_, ?_⟩
    · rw [hER, hEB, List.append_assoc]
    · intro a
      have c1 := hcntB a
      have c2 := hcntR a
      simp only [srcList, offList, List.map_append, List.map_cons,
        List.count_append, List.count_cons] at c1 c2 ⊢
      split_ifs <;> omega
  | ifNoElse b e body rest hbk hek _hbody _hrest ihbody ihrest =>
    intro endMap i S E S2 E2 hrun
    obtain ⟨st1, hstep1, hrun1⟩ := pass2_ok_cons endMap b (body ++ e :: rest) i
      (S, E) (S2, E2) hrun
    have hv : pass2Step endMap (S, E) i b =
        .ok ((i, ⟨.If, b.offset, b.offset + 2, none⟩) :: S, E) := by
      simp [pass2Step, hbk]
    have hst1 : st1 = ((i, ⟨.If, b.offset, b.offset + 2, none⟩) :: S, E) := by
      rw [hv] at hstep1
      injection hstep1 with h2
      exact h2.symm
    subst hst1
    obtain ⟨stM, hrunB, hrunC⟩ := pass2_ok_split endMap body (e :: rest) (i + 1)
      _ _ hrun1
    obtain ⟨hstackB, newB, hEB, hcntB⟩ := ihbody endMap (i + 1)
      ((i, ⟨.If, b.offset, b.offset + 2, none⟩) :: S) E stM.1 stM.2 hrunB
    obtain ⟨stN, hstepE, hrunR⟩ := pass2_ok_cons endMap e rest (i + 1 + body.length)
      stM (S2, E2) hrunC
    have hvE : pass2Step endMap stM (i + 1 + body.length) e =
        .ok (S, stM.2 ++ [⟨u32 b.offset, u32 (e.offset + 1)⟩]) := by
      simp [pass2Step, hek, hstackB]
    have hstN : stN = (S, stM.2 ++ [⟨u32 b.offset, u32 (e.offset + 1)⟩]) := by
      rw [hvE] at hstepE
      injection hstepE with h2
      exact h2.symm
    subst hstN
    obtain ⟨hstackR, newR, hER, hcntR⟩ := ihrest endMap (i + 1 + body.length + 1)
      S (stM.2 ++ [⟨u32 b.offset, u32 (e.offset + 1)⟩]) S2 E2 hrunR
    refine ⟨hstackR, newB ++ ⟨u32 b.offset, u32 (e.offset + 1)⟩ :: newR, ?_, ?_⟩
    · rw [hER, hEB]
      simp
    · intro a
      have c1 := hcntB a
      have c2 := hcntR a
      simp only [srcList, offList, List.map_append, List.map_cons,
        List.count_append, List.count_cons] at c1 c2 ⊢
      split_ifs <;> omega
  | ifElse b el e body1 body2 rest hbk helk hek _h1 _h2 _h3 ihbody1 ihbody2 ihrest =>
    intro endMap i S E S2 E2 hrun0
    have hassoc : (b :: body1 ++ el :: body2 ++ e :: rest) =
        b :: (body1 ++ (el :: (body2 ++ (e :: rest)))) := by
      simp
    rw [hassoc] at hrun0
    have hrun : pass2 endMap (b :: (body1 ++ (el :: (body2 ++ (e :: rest))))) i (S, E) =
        .ok (S2, E2) := hrun0
    obtain ⟨st1, hstep1, hrun1⟩ := pass2_ok_cons endMap b
      (body1 ++ (el :: (body2 ++ (e :: rest)))) i (S, E) (S2, E2) hrun
    have hv : pass2Step endMap (S, E) i b =
        .ok ((i, ⟨.If, b.offset, b.offset + 2, none⟩) :: S, E) := by
      simp [pass2Step, hbk]
    have hst1 : st1 = ((i, ⟨.If, b.offset, b.offset + 2, none⟩) :: S, E) := by
      rw [hv] at hstep1
      injection hstep1 with h2
      exact h2.symm
    subst hst1
    obtain ⟨stM1, hrunB1, hrunC1⟩ := pass2_ok_split endMap body1
      (el :: (body2 ++ (e :: rest))) (i + 1) _ _ hrun1
    obtain ⟨hstack1, new1, hE1, hcnt1⟩ := ihbody1 endMap (i + 1)
      ((i, ⟨.If, b.offset, b.offset + 2, none⟩) :: S) E stM1.1 stM1.2 hrunB1
    obtain ⟨stN1, hstepEl, hrunC2⟩ := pass2_ok_cons endMap el (body2 ++ (e :: rest))
      (i + 1 + body1.length) stM1 (S2, E2) hrunC1
    have hvEl : pass2Step endMap stM1 (i + 1 + body1.length) el =
        .ok ((i, ⟨.If, b.offset, b.offset + 2, some el.offset⟩) :: S,
          stM1.2 ++ [⟨u32 b.offset, u32 (el.offset + 1)⟩]) := by
      simp [pass2Step, helk, hstack1]
    have hstN1 : stN1 = ((i, ⟨.If, b.offset, b.offset + 2, some el.offset⟩) :: S,
        stM1.2 ++ [⟨u32 b.offset, u32 (el.offset + 1)⟩]) := by
      rw [hvEl] at hstepEl
      injection hstepEl with h2
      exact h2.symm
    subst hstN1
    obtain ⟨stM2, hrunB2, hrunC3⟩ := pass2_ok_split endMap body2 (e :: rest)
      (i + 1 + body1.length + 1) _ _ hrunC2
    obtain ⟨hstack2, new2, hE2, hcnt2⟩ := ihbody2 endMap (i + 1 + body1.length + 1)
      ((i, ⟨.If, b.offset, b.offset + 2, some el.offset⟩) :: S)
      (stM1.2 ++ [⟨u32 b.offset, u32 (el.offset + 1)⟩]) stM2.1 stM2.2 hrunB2
    obtain ⟨stN2, hstepE, hrunR⟩ := pass2_ok_cons endMap e rest
      (i + 1 + body1.length + 1 + body2.length) stM2 (S2, E2) hrunC3
    have hvE : pass2Step endMap stM2 (i + 1 + body1.length + 1 + body2.length) e =
        .ok (S, stM2.2 ++ [⟨u32 el.offset, u32 (e.offset + 1)⟩]) := by
      simp [pass2Step, hek, hstack2]
    have hstN2 : stN2 = (S, stM2.2 ++ [⟨u32 el.offset, u32 (e.offset + 1)⟩]) := by
      rw [hvE] at hstepE
      injection hstepE with h2
      exact h2.symm
    subst hstN2
    obtain ⟨hstackR, newR, hER, hcntR⟩ := ihrest endMap
      (i + 1 + body1.length + 1 + body2.length + 1) S
      (stM2.2 ++ [⟨u32 el.offset, u32 (e.offset + 1)⟩]) S2 E2 hrunR
    refine ⟨hstackR, new1 ++ ⟨u32 b.offset, u32 (el.offset + 1)⟩ ::
      (new2 ++ ⟨u32 el.offset, u32 (e.offset + 1)⟩ :: newR), ?_, ?_⟩
    · rw [hER, hE2, hE1]
      simp
    · intro a
      have c1 := hcnt1 a
      have c2 := hcnt2 a
      have c3 := hcntR a
      simp only [srcList, offList, List.map_append, List.map_cons,
        List.count_append, List.count_cons] at c1 c2 c3 ⊢
      split_ifs <;> omega

theorem offList_nodup (l : List InstrRecord) (hov : offsetsValid l)
    (hb : ∀ r ∈ l, r.offset + 2 < 2 ^ 32) : (offList l).Nodup := by
  induction l with
  | nil => exact List.nodup_nil
  | cons a rest ih =>
    refine List.nodup_cons.mpr ⟨?_, ih (offsetsValid_cons a rest hov)
      (fun r hr => hb r (List.mem_cons_of_mem a hr))⟩
    intro hmem
    obtain ⟨r, hr, heq⟩ := List.mem_map.mp hmem
    have h1 := offsetsValid_head_le a rest hov r hr
    have h2 := instrWidth_pos a
    have hba := hb a (List.mem_cons_self a rest)
    have hbr := hb r (List.mem_cons_of_mem a hr)
    have e1 : u32 r.offset = r.offset := Nat.mod_eq_of_lt (by omega)
    have e2 : u32 a.offset = a.offset := Nat.mod_eq_of_lt (by omega)
    have : u32 r.offset = u32 a.offset := heq
    omega

/-- Claim C7: on a well-formed structured record sequence with
width-respecting, non-wrapping offsets, a successful `compute_branch_table`
emits entries whose source PCs are pairwise distinct — each instruction
offset is used as a source at most once (an `If`'s start is used either at
its `Else` or at its `End`, never both). -/
theorem distinct_sources_c7 (instrs : List InstrRecord) (entries : List BranchEntry)
    (hwf2 : WF instrs) (hov : offsetsValid instrs)
    (hb : ∀ r ∈ instrs, r.offset + 2 < 2 ^ 32)
    (h : compute_branch_table instrs = .ok entries) :
    (entries.map (fun en => en.source_pc)).Nodup := by
  obtain ⟨S, hrun⟩ := compute_ok_elim instrs entries h
  obtain ⟨_hstack, new, hE, hcount⟩ := wf_shape instrs hwf2 (block_end_map instrs)
    0 [] [] S entries hrun
  have hnew : entries = new := by simpa using hE
  have hnd := offList_nodup instrs hov hb
  rw [List.nodup_iff_count_le_one] at hnd ⊢
  intro a
  have h1 := hcount a
  have h2 := hnd a
  rw [hnew]
  exact le_trans h1 h2

theorem distinct_sources_c7_witness :
    (([⟨u32 0, u32 3⟩, ⟨u32 2, u32 4⟩] :
        List BranchEntry).map (fun en => en.source_pc)).Nodup :=
  distinct_sources_c7 [⟨0, .If⟩, ⟨2, .Else⟩, ⟨3, .End⟩] [⟨u32 0, u32 3⟩, ⟨u32 2, u32 4⟩]
    (WF.ifElse ⟨0, .If⟩ ⟨2, .Else⟩ ⟨3, .End⟩ [] [] [] rfl rfl rfl WF.nil WF.nil WF.nil)
    (by decide) (by decide) rfl

end WasmIc
